import Mathlib

/-!
# Constitutional chain: critique parsing and the critique/revision loop

A shallow embedding of `chains/constitutional.go` (`parseCritique` and
`Constitutional.Call`) together with the parts of Go's `strings` package that
the code calls (`Index`, `Contains`, `Split`, `Trim`, `ToLower`).

A Go string is modelled as the list of its code points.  All separators the
program searches for are ASCII, so searching code points and searching bytes
find the same positions in well-formed UTF-8 text.
-/

namespace Chains

/-! ## Go strings -/

/-- A Go string holding UTF-8 text, as the sequence of its code points. -/
abbrev GoString := List Char

/-- Go `strings.HasPrefix(s, pre)`. -/
def HasPrefix (s pre : GoString) : Bool :=
  pre.isPrefixOf s

/-- Go `strings.Index(s, substr)`: the position of the first instance of
`substr` in `s`; `none` stands for Go's `-1`. -/
def Index (s substr : GoString) : Option Nat :=
  match s with
  | [] => if substr = [] then some 0 else none
  | c :: t =>
    if HasPrefix (c :: t) substr then some 0
    else (Index t substr).map (· + 1)

/-- Go `strings.Contains(s, substr)`, which is `Index(s, substr) >= 0`. -/
def Contains (s substr : GoString) : Bool :=
  (Index s substr).isSome

/-- The loop of Go `strings.genSplit(s, sep, 0, n)` for a non-empty `sep`:
`n` bounds the number of cuts, the loop breaks as soon as `sep` is not found. -/
def genSplitLoop (sep : GoString) : Nat → GoString → List GoString
  | 0, s => [s]
  | n + 1, s =>
    match Index s sep with
    | none => [s]
    | some m => s.take m :: genSplitLoop sep n (s.drop (m + sep.length))

/-- Go `strings.Split(s, sep)`.  With an empty separator the string is
exploded into its code points.  Otherwise `genSplit` cuts at every instance of
`sep`; Go caps the number of pieces at `len(s) + 1`, so at most `len(s)` cuts
are made. -/
def Split (s sep : GoString) : List GoString :=
  if sep = [] then s.map (fun c => [c])
  else genSplitLoop sep s.length s

/-- Go `strings.TrimLeft(s, cutset)`. -/
def TrimLeft (s cutset : GoString) : GoString :=
  s.dropWhile (fun c => cutset.contains c)

/-- Go `strings.TrimRight(s, cutset)`. -/
def TrimRight (s cutset : GoString) : GoString :=
  (s.reverse.dropWhile (fun c => cutset.contains c)).reverse

/-- Go `strings.Trim(s, cutset)`: `s` without the leading and trailing code
points contained in `cutset`. -/
def Trim (s cutset : GoString) : GoString :=
  if s = [] ∨ cutset = [] then s
  else TrimLeft (TrimRight s cutset) cutset

/-- The ASCII branch of Go `strings.ToLower`: `'A'..'Z'` are shifted by
`'a' - 'A'`, every other byte is kept. -/
def lowerASCII (c : Char) : Char :=
  if 'A' ≤ c ∧ c ≤ 'Z' then Char.ofNat (c.toNat + ('a'.toNat - 'A'.toNat)) else c

/-- Go `strings.ToLower(s)`.  A string of ASCII only is lowered byte by byte;
any other string is mapped through `unicode.ToLower`, whose table is not part
of the program and is the parameter `unicodeToLower`. -/
def ToLower (unicodeToLower : Char → Char) (s : GoString) : GoString :=
  if s.all (fun c => c.toNat < 128) then s.map lowerASCII
  else s.map unicodeToLower

/-! ## parseCritique -/

/-- The literal `"Revision request:"`. -/
def revisionRequestMarker : GoString := "Revision request:".toList

/-- The literal `"\n\n"`. -/
def blankLine : GoString := "\n\n".toList

/-- Indexing `[0]` of the slice returned by `strings.Split`.  `Split` with a
non-empty separator returns at least one piece, so the index is in range on
every call made by `parseCritique`. -/
def first (pieces : List GoString) : GoString :=
  match pieces with
  | [] => []
  | p :: _ => p

/-- Go `parseCritique(rawCritique)`. -/
def parseCritique (rawCritique : GoString) : GoString :=
  if !Contains rawCritique revisionRequestMarker then rawCritique
  else
    let outputString := first (Split rawCritique revisionRequestMarker)
    if Contains outputString blankLine then first (Split outputString blankLine)
    else outputString

/-! ## Values, maps and collaborators -/

/-- The two fields of Go's `Pair`.  They are declared `interface{}`; `Call`
only ever stores Go strings in them (the critique and the revision). -/
structure Pair where
  first : GoString
  second : GoString
  deriving DecidableEq

/-- A Go value of type `any` as it occurs in the maps `Call` reads and
builds: a string, the slice `[]Pair`, or some other dynamic value (identified
by a tag) that is not a string. -/
inductive Value where
  | str (s : GoString)
  | pairs (ps : List Pair)
  | other (tag : Nat)
  deriving DecidableEq

/-- A Go `map[string]any`, as an association list with distinct keys. -/
abbrev GoMap := List (GoString × Value)

/-- Reading `m[key]` with the comma-ok form: `none` when the key is absent (also for a nil
map). -/
def GoMap.get (m : GoMap) (key : GoString) : Option Value :=
  m.lookup key

/-- The assignment `m[key] = v`. -/
def GoMap.set (m : GoMap) (key : GoString) (v : Value) : GoMap :=
  m.filter (fun kv => kv.1 ≠ key) ++ [(key, v)]

/-- A Go `error` value: one made by `fmt.Errorf(msg)`, or one handed back by a
collaborator (identified by a code). -/
inductive GoError where
  | errorf (msg : GoString)
  | external (code : Nat)
  deriving DecidableEq

/-- What a collaborator's `Call` hands back: `(outputs, nil)` or `(_, err)`. -/
inductive ChainResult where
  | ok (outputs : GoMap)
  | err (e : GoError)
  deriving DecidableEq

/-- What `FormatPrompt` hands back: `(promptValue, nil)` or `(_, err)`. -/
inductive PromptResult where
  | ok (promptValue : Value)
  | err (e : GoError)
  deriving DecidableEq

/-- The `Prompt` field of an `LLMChain`, with its method `FormatPrompt`. -/
structure FormatPrompter where
  FormatPrompt : GoMap → PromptResult

/-- An `LLMChain` as `Call` sees it.  Its `Call` method talks to a language
model: it reads and changes a world state `σ` (model, memory, clock) that the
program does not control. -/
structure LLMChain (σ : Type) where
  Prompt : FormatPrompter
  Call : GoMap → σ → ChainResult × σ

/-- Go `ConstitutionalPrinciple`. -/
structure ConstitutionalPrinciple where
  critiqueRequest : GoString
  revisionRequest : GoString
  name : GoString
  deriving DecidableEq

/-- Go `NewConstitutionalPrinciple(critique, revision, names...)`. -/
def NewConstitutionalPrinciple (critique revision : GoString) (names : List GoString) :
    ConstitutionalPrinciple :=
  let name : GoString :=
    match names with
    | [] => "Constitutional Principle".toList
    | n :: _ => n
  { critiqueRequest := critique, revisionRequest := revision, name := name }

/-- Go `Constitutional`, with the fields `Call` and `GetOutputKeys` read
(`llm` and `memory` are not read by either). -/
structure Constitutional (σ : Type) where
  chain : LLMChain σ
  critiqueChain : LLMChain σ
  revisionChain : LLMChain σ
  constitutionalPrinciples : List ConstitutionalPrinciple
  returnIntermediateSteps : Bool

/-- Which of the three sub-chains a call went to. -/
inductive Callee where
  | chain
  | critiqueChain
  | revisionChain
  deriving DecidableEq

/-- One sub-chain call made during `Call`: who was called, with which inputs,
and what came back. -/
structure CallEvent where
  callee : Callee
  inputs : GoMap
  result : ChainResult
  deriving DecidableEq

/-- How a piece of Go code ends: it yields a value, returns `nil, err`, or
panics. -/
inductive Result (α : Type) where
  | ok (a : α)
  | error (err : GoError)
  | panic
  deriving DecidableEq

/-- A finished piece of code: how it ended, the sub-chain calls it made in
order, and the world state it left. -/
structure Ran (σ α : Type) where
  result : Result α
  calls : List CallEvent
  world : σ

/-- The variables the loop of `Call` updates. -/
structure LoopState where
  response : Value
  critiquesAndRevisions : List Pair
  deriving DecidableEq

/-! ## Constitutional.Call -/

/-- The key `"text"`. -/
def textKey : GoString := "text".toList

/-- The literal `"no critique needed"`. -/
def noCritiqueNeeded : GoString := "no critique needed".toList

/-- The literal `" "`. -/
def space : GoString := " ".toList

/-- The error made by `fmt.Errorf("not found")`. -/
def notFound : GoError := GoError.errorf "not found".toList

/-- The map literal passed to the critique chain. -/
def critiqueInputs (inputPrompt response : Value) (critiqueRequest : GoString) : GoMap :=
  [("input_prompt".toList, inputPrompt),
   ("output_from_model".toList, response),
   ("critique_request".toList, Value.str critiqueRequest)]

/-- The body of the `for` loop of `Call` for one principle: `ok` is the state
with which the loop goes on (by `continue` or by reaching the end of the
body), `error` and `panic` leave `Call`. -/
def loopBody {σ : Type} (unicodeToLower : Char → Char) (c : Constitutional σ)
    (inputPrompt : Value) (constitutionalPrincipal : ConstitutionalPrinciple)
    (st : LoopState) (w : σ) : Ran σ LoopState :=
  let args := critiqueInputs inputPrompt st.response constitutionalPrincipal.critiqueRequest
  match c.critiqueChain.Call args w with
  | (ChainResult.err e, w1) => ⟨Result.error e, [⟨Callee.critiqueChain, args, ChainResult.err e⟩], w1⟩
  | (ChainResult.ok rawCritique, w1) =>
    let ev1 : CallEvent := ⟨Callee.critiqueChain, args, ChainResult.ok rawCritique⟩
    match rawCritique.get textKey with
    | none => ⟨Result.error notFound, [ev1], w1⟩
    | some (Value.str output) =>
      let critique := Trim (parseCritique output) space
      if noCritiqueNeeded = critique then ⟨Result.ok st, [ev1], w1⟩
      else if Contains (ToLower unicodeToLower critique) noCritiqueNeeded then
        ⟨Result.ok { st with
            critiquesAndRevisions := st.critiquesAndRevisions ++ [⟨critique, []⟩] },
          [ev1], w1⟩
      else
        match c.revisionChain.Call [] w1 with
        | (ChainResult.err e, w2) =>
          ⟨Result.error e, [ev1, ⟨Callee.revisionChain, [], ChainResult.err e⟩], w2⟩
        | (ChainResult.ok result, w2) =>
          let ev2 : CallEvent := ⟨Callee.revisionChain, [], ChainResult.ok result⟩
          match result.get textKey with
          | some (Value.str revision) =>
            let revision := Trim revision space
            ⟨Result.ok
                { response := Value.str revision,
                  critiquesAndRevisions := st.critiquesAndRevisions ++ [⟨critique, revision⟩] },
              [ev1, ev2], w2⟩
          | _ => ⟨Result.error notFound, [ev1, ev2], w2⟩
    | some _ => ⟨Result.panic, [ev1], w1⟩

/-- The `for ... range c.constitutionalPrinciples` loop of `Call`. -/
def loop {σ : Type} (unicodeToLower : Char → Char) (c : Constitutional σ)
    (inputPrompt : Value) : List ConstitutionalPrinciple → LoopState → σ → Ran σ LoopState
  | [], st, w => ⟨Result.ok st, [], w⟩
  | p :: ps, st, w =>
    let r := loopBody unicodeToLower c inputPrompt p st w
    match r.result with
    | Result.ok st1 =>
      let r2 := loop unicodeToLower c inputPrompt ps st1 r.world
      ⟨r2.result, r.calls ++ r2.calls, r2.world⟩
    | Result.error e => ⟨Result.error e, r.calls, r.world⟩
    | Result.panic => ⟨Result.panic, r.calls, r.world⟩

/-- The map `Call` returns on success. -/
def finalOutput (returnIntermediateSteps : Bool) (initialResponse : Value) (st : LoopState) :
    GoMap :=
  let out : GoMap := [("output".toList, st.response)]
  if returnIntermediateSteps then
    (out.set "initial_output".toList initialResponse).set
      "critiques_and_revisions".toList (Value.pairs st.critiquesAndRevisions)
  else out

/-- Go `(c *Constitutional) Call(ctx, inputs, options...)`. -/
def Call {σ : Type} (unicodeToLower : Char → Char) (c : Constitutional σ)
    (inputs : GoMap) (w : σ) : Ran σ GoMap :=
  match c.chain.Call inputs w with
  | (ChainResult.err e, w1) => ⟨Result.error e, [⟨Callee.chain, inputs, ChainResult.err e⟩], w1⟩
  | (ChainResult.ok result, w1) =>
    let ev0 : CallEvent := ⟨Callee.chain, inputs, ChainResult.ok result⟩
    match result.get textKey with
    | none => ⟨Result.error notFound, [ev0], w1⟩
    | some response =>
      let initialResponse := response
      match c.chain.Prompt.FormatPrompt inputs with
      | PromptResult.err e => ⟨Result.error e, [ev0], w1⟩
      | PromptResult.ok inputPrompt =>
        let r := loop unicodeToLower c inputPrompt c.constitutionalPrinciples
          ⟨response, []⟩ w1
        match r.result with
        | Result.ok st =>
          ⟨Result.ok (finalOutput c.returnIntermediateSteps initialResponse st),
            ev0 :: r.calls, r.world⟩
        | Result.error e => ⟨Result.error e, ev0 :: r.calls, r.world⟩
        | Result.panic => ⟨Result.panic, ev0 :: r.calls, r.world⟩

/-- Go `(c *Constitutional) GetOutputKeys()`. -/
def GetOutputKeys {σ : Type} (c : Constitutional σ) : List GoString :=
  if c.returnIntermediateSteps then
    ["output".toList, "critiques_and_revisions".toList, "initial_output".toList]
  else ["output".toList]

/-! ## Notions used to state the properties -/

/-- The string `p` is the part of `s` before the first occurrence of `sep`:
`sep` occurs right after `p`, and no occurrence of `sep` starts earlier. -/
def IsBeforeFirst (s sep p : GoString) : Prop :=
  (∃ rest, s = p ++ (sep ++ rest)) ∧
    ∀ p1 rest1, s = p1 ++ (sep ++ rest1) → p.length ≤ p1.length

/-- `TEXT_ONE` of `TestConstitutionCritiqueParsing`. -/
def TEXT_ONE : GoString :=
  " This text is bad.\n\n\tRevision request: Make it better.\n\t\n\tRevision:".toList

/-- `TEXT_TWO` of `TestConstitutionCritiqueParsing`. -/
def TEXT_TWO : GoString := " This text is bad.\n\n".toList

/-- `TEXT_THREE` of `TestConstitutionCritiqueParsing`. -/
def TEXT_THREE : GoString :=
  " This text is bad.\n\t\n\tRevision request: Make it better.\n\t\n\tRevision: Better text".toList

/-- The trimmed text that a call event contributes as a new response: only a
revision-chain call that came back with a string under "text" gives one. -/
def revisedText (ev : CallEvent) : Option Value :=
  match ev.callee, ev.result with
  | Callee.revisionChain, ChainResult.ok m =>
    match m.get textKey with
    | some (Value.str revision) => some (Value.str (Trim revision space))
    | _ => none
  | _, _ => none

/-- The current response after a sequence of calls, starting from `current`:
the trimmed text of the most recent revision, or `current` when there is
none. -/
def currentResponseAfter (current : Value) : List CallEvent → Value
  | [] => current
  | ev :: rest => currentResponseAfter ((revisedText ev).getD current) rest

/-- For each critique-chain call of a log, in order, the current response at
the time of that call. -/
def responsesAtCritiques (current : Value) : List CallEvent → List Value
  | [] => []
  | ev :: rest =>
    if ev.callee = Callee.critiqueChain then current :: responsesAtCritiques current rest
    else responsesAtCritiques ((revisedText ev).getD current) rest

/-- The inputs of the critique-chain calls of a log, in order. -/
def critiqueCallInputs (calls : List CallEvent) : List GoMap :=
  (calls.filter (fun ev => ev.callee = Callee.critiqueChain)).map (fun ev => ev.inputs)

/-- The calls of a log that went to the revision chain. -/
def revisionCalls (calls : List CallEvent) : List CallEvent :=
  calls.filter (fun ev => ev.callee = Callee.revisionChain)

/-- The ways `Call` ends without an output map: it returns `nil, err`, or it
panics. -/
inductive Abort where
  | error (err : GoError)
  | panic
  deriving DecidableEq

/-- The way a result is a failure, if it is one. -/
def Result.abort {α : Type} : Result α → Option Abort
  | Result.ok _ => none
  | Result.error e => some (Abort.error e)
  | Result.panic => some Abort.panic

/-- What the response of a sub-chain call does to `Call`: `none` when `Call`
goes on after it.  An error is handed on; a response without "text" gives the
"not found" error; a "text" that is not a string is not looked at for the
primary chain, makes the type assertion panic for the critique chain, and
gives the "not found" error for the revision chain. -/
def stopsWith (ev : CallEvent) : Option Abort :=
  match ev.result with
  | ChainResult.err e => some (Abort.error e)
  | ChainResult.ok m =>
    match m.get textKey with
    | none => some (Abort.error notFound)
    | some (Value.str _) => none
    | some _ =>
      match ev.callee with
      | Callee.chain => none
      | Callee.critiqueChain => some Abort.panic
      | Callee.revisionChain => some (Abort.error notFound)

/-- The first call of a log whose response stops `Call`: the way it stops, and
the calls made after it. -/
def firstStop : List CallEvent → Option (Abort × List CallEvent)
  | [] => none
  | ev :: rest =>
    match stopsWith ev with
    | some a => some (a, rest)
    | none => firstStop rest

/-- The critique a critique-chain call yields: its "text" parsed, then
trimmed of spaces. -/
def critiqueOf (ev : CallEvent) : Option GoString :=
  match ev.callee, ev.result with
  | Callee.critiqueChain, ChainResult.ok m =>
    match m.get textKey with
    | some (Value.str output) => some (Trim (parseCritique output) space)
    | _ => none
  | _, _ => none

/-- The pairs recorded for the calls of a log, in the order of the calls.  A
critique that is exactly "no critique needed" records nothing; one that
contains it ignoring case records (critique, ""); any other critique is kept
as `pending` and recorded with the trimmed text of the revision call that
follows it. -/
def recordedPairs (unicodeToLower : Char → Char) :
    Option GoString → List CallEvent → List Pair
  | _, [] => []
  | pending, ev :: rest =>
    match ev.callee with
    | Callee.chain => recordedPairs unicodeToLower pending rest
    | Callee.critiqueChain =>
      match critiqueOf ev with
      | none => recordedPairs unicodeToLower none rest
      | some critique =>
        if noCritiqueNeeded = critique then recordedPairs unicodeToLower none rest
        else if Contains (ToLower unicodeToLower critique) noCritiqueNeeded then
          ⟨critique, []⟩ :: recordedPairs unicodeToLower none rest
        else recordedPairs unicodeToLower (some critique) rest
    | Callee.revisionChain =>
      match pending, revisedText ev with
      | some critique, some (Value.str revision) =>
        ⟨critique, revision⟩ :: recordedPairs unicodeToLower none rest
      | _, _ => recordedPairs unicodeToLower none rest

/-- The calls `seg` are those of one loop iteration for the principle `p`:
first the critique call, made with the critique request of `p`, then calls to
the revision chain only. -/
def IsIterationFor (inputPrompt : Value) (p : ConstitutionalPrinciple)
    (seg : List CallEvent) : Prop :=
  ∃ resp res tail,
    seg = ⟨Callee.critiqueChain, critiqueInputs inputPrompt resp p.critiqueRequest, res⟩ :: tail ∧
    ∀ ev ∈ tail, ev.callee = Callee.revisionChain

/-- The character is a space, a tab or a newline. -/
def isWhitespace (c : Char) : Bool :=
  c = ' ' || c = '\t' || c = '\n'

/-- The string neither starts nor ends with white space. -/
def IsTrimmed (s : GoString) : Bool :=
  !(s.head?.any isWhitespace) && !(s.getLast?.any isWhitespace)

/-! ## Stub collaborators for concrete runs -/

/-- A sub-chain response holding `text` under the key "text". -/
def textAnswer (text : GoString) : ChainResult :=
  ChainResult.ok [(textKey, Value.str text)]

/-- A stub sub-chain without state: its answer is a function of its inputs,
and its prompt formats every input to the same prompt value. -/
def stubChain (answer : GoMap → ChainResult) : LLMChain Unit :=
  { Prompt := ⟨fun _ => PromptResult.ok (Value.str "Human: hi".toList)⟩,
    Call := fun inputs w => (answer inputs, w) }

/-- The principle built in the repository's test. -/
def testPrinciple : ConstitutionalPrinciple :=
  NewConstitutionalPrinciple "Tell if this answer is good.".toList
    "Give a better answer.".toList []

/-- A second principle, for runs with two principles. -/
def stylePrinciple : ConstitutionalPrinciple :=
  NewConstitutionalPrinciple "Tell if this answer is polite.".toList
    "Give a more polite answer.".toList ["Politeness".toList]

/-- A `Constitutional` over stubs: the primary chain answers "draft", the
revision chain answers " revised " and the critique chain answers as given. -/
def stubConstitutional (critique : GoMap → ChainResult)
    (principles : List ConstitutionalPrinciple) (steps : Bool) : Constitutional Unit :=
  { chain := stubChain (fun _ => textAnswer "draft".toList),
    critiqueChain := stubChain critique,
    revisionChain := stubChain (fun _ => textAnswer " revised ".toList),
    constitutionalPrinciples := principles,
    returnIntermediateSteps := steps }

/-- A critique stub that asks for a revision of "draft" and accepts every
other response. -/
def critiqueDraftOnly (inputs : GoMap) : ChainResult :=
  if inputs.get "output_from_model".toList = some (Value.str "draft".toList) then
    textAnswer "Needs fixing. Revision request: clarify. Revision:".toList
  else textAnswer "No critique needed.".toList

/-- A `Constitutional` over stubs with the three answers as given. -/
def stubConstitutionalOf (primary critique revision : GoMap → ChainResult)
    (principles : List ConstitutionalPrinciple) (steps : Bool) : Constitutional Unit :=
  { chain := stubChain primary,
    critiqueChain := stubChain critique,
    revisionChain := stubChain revision,
    constitutionalPrinciples := principles,
    returnIntermediateSteps := steps }

/-- A critique stub that asks for a revision of "draft" and answers every
other response as given. -/
def critiqueDraftElse (other : ChainResult) (inputs : GoMap) : ChainResult :=
  if inputs.get "output_from_model".toList = some (Value.str "draft".toList) then
    textAnswer "Needs fixing. Revision request: clarify. Revision:".toList
  else other

/-- The run used as the example with two principles: the first critique asks
for a revision, the second finds nothing to criticise. -/
def twoPrincipleRun : Constitutional Unit :=
  stubConstitutional critiqueDraftOnly [testPrinciple, stylePrinciple] true

/-- The same run with principles that keep the critique requests and differ
in revision request and name. -/
def twoPrincipleRunRenamed : Constitutional Unit :=
  stubConstitutional critiqueDraftOnly
    [NewConstitutionalPrinciple testPrinciple.critiqueRequest "Rewrite it.".toList [],
      NewConstitutionalPrinciple stylePrinciple.critiqueRequest "Say please.".toList
        ["Courtesy".toList]]
    true

/-! ## Facts about the string functions -/

theorem hasPrefix_iff (s pre : GoString) : HasPrefix s pre = true ↔ pre <+: s := by
  simp [HasPrefix]

theorem index_nil_of_ne (sub : GoString) (h : sub ≠ []) : Index [] sub = none := by
  simp [Index, h]

/-- Every occurrence of `sub` is found, at or before the place it starts. -/
theorem index_of_occurrence (sub : GoString) :
    ∀ (p r : GoString), ∃ i, Index (p ++ (sub ++ r)) sub = some i ∧ i ≤ p.length := by
  intro p
  induction p with
  | nil =>
    intro r
    refine ⟨0, ?_, le_refl _⟩
    cases hs : sub ++ r with
    | nil =>
      have : sub = [] := (List.append_eq_nil.mp hs).1
      simp [Index, this]
    | cons c t =>
      have hp : HasPrefix (c :: t) sub = true := by
        rw [hasPrefix_iff, ← hs]; exact List.prefix_append _ _
      simp [Index, hp]
  | cons c p ih =>
    intro r
    by_cases hp : HasPrefix (c :: (p ++ (sub ++ r))) sub = true
    · exact ⟨0, by simp [Index, hp], Nat.zero_le _⟩
    · obtain ⟨i, hi, hle⟩ := ih r
      refine ⟨i + 1, ?_, by simpa using hle⟩
      simp [Index, hp, hi]

/-- Where `Index` answers `i`, there is an occurrence of `sub` at `i`. -/
theorem index_some_split (sub : GoString) :
    ∀ (s : GoString) (i : Nat), Index s sub = some i →
      s = s.take i ++ (sub ++ s.drop (i + sub.length)) ∧ i + sub.length ≤ s.length := by
  intro s
  induction s with
  | nil =>
    intro i h
    by_cases hs : sub = []
    · simp [Index, hs] at h; subst h; simp [hs]
    · simp [Index, hs] at h
  | cons c t ih =>
    intro i h
    by_cases hp : HasPrefix (c :: t) sub = true
    · simp [Index, hp] at h
      subst h
      obtain ⟨r, hr⟩ := (hasPrefix_iff _ _).mp hp
      have hd : List.drop sub.length (c :: t) = r := by
        rw [← hr]; simp
      refine ⟨?_, ?_⟩
      · simp [hd, hr]
      · have := congrArg List.length hr
        simp at this
        simp; omega
    · simp [Index, hp] at h
      obtain ⟨j, hj, rfl⟩ := h
      obtain ⟨h1, h2⟩ := ih j hj
      refine ⟨?_, by simp; omega⟩
      have : j + 1 + sub.length = (j + sub.length) + 1 := by omega
      rw [this]
      simp only [List.take_succ_cons, List.drop_succ_cons, List.cons_append]
      rw [← h1]

theorem contains_iff (s sub : GoString) : Contains s sub = true ↔ sub <:+: s := by
  constructor
  · intro h
    rw [Contains, Option.isSome_iff_exists] at h
    obtain ⟨i, hi⟩ := h
    obtain ⟨h1, _⟩ := index_some_split sub s i hi
    exact ⟨s.take i, s.drop (i + sub.length), by rw [List.append_assoc]; exact h1.symm⟩
  · rintro ⟨p, r, h⟩
    obtain ⟨i, hi, _⟩ := index_of_occurrence sub p r
    rw [List.append_assoc] at h
    rw [Contains, ← h, hi]; rfl

theorem index_isBeforeFirst (s sub : GoString) (i : Nat) (h : Index s sub = some i) :
    IsBeforeFirst s sub (s.take i) := by
  obtain ⟨h1, h2⟩ := index_some_split sub s i h
  refine ⟨⟨_, h1⟩, ?_⟩
  intro p1 r1 hs
  obtain ⟨j, hj, hle⟩ := index_of_occurrence sub p1 r1
  rw [← hs, h] at hj
  cases hj
  simp only [List.length_take]
  omega

theorem first_split (s sep : GoString) (hsep : sep ≠ []) :
    first (Split s sep) =
      match Index s sep with
      | none => s
      | some i => s.take i := by
  cases s with
  | nil => simp [Split, hsep, genSplitLoop, first, index_nil_of_ne sep hsep]
  | cons c t =>
    simp only [Split, hsep, if_false, List.length_cons, genSplitLoop]
    cases Index (c :: t) sep <;> rfl

theorem split_ne_nil (s sep : GoString) (hsep : sep ≠ []) : Split s sep ≠ [] := by
  cases s with
  | nil => simp [Split, hsep, genSplitLoop]
  | cons c t =>
    simp only [Split, hsep, if_false, List.length_cons, genSplitLoop]
    cases Index (c :: t) sep <;> simp

theorem marker_ne_nil : revisionRequestMarker ≠ [] := by decide

theorem blankLine_ne_nil : blankLine ≠ [] := by decide

/-- The result of `parseCritique` in terms of `Index`. -/
theorem parseCritique_eq (raw : GoString) :
    parseCritique raw =
      match Index raw revisionRequestMarker with
      | none => raw
      | some i =>
        match Index (raw.take i) blankLine with
        | none => raw.take i
        | some j => (raw.take i).take j := by
  unfold parseCritique
  rw [first_split raw _ marker_ne_nil]
  cases h : Index raw revisionRequestMarker with
  | none => simp [Contains, h]
  | some i =>
    simp only [Contains, h, Option.isSome_some, Bool.not_true, Bool.false_eq_true, if_false]
    rw [first_split _ _ blankLine_ne_nil]
    cases h2 : Index (List.take i raw) blankLine <;> simp

/-- An occurrence of `sub` in `a ++ c :: b`, where `c` does not occur in
`sub`, lies within `a` or within `b`. -/
theorem infix_split_at (sub a b : GoString) (c : Char) (hc : c ∉ sub)
    (h : sub <:+: a ++ c :: b) : sub <:+: a ∨ sub <:+: b := by
  obtain ⟨p, r, h⟩ := h
  rcases List.append_eq_append_iff.mp h with ⟨a1, ha, hb⟩ | ⟨c1, hps, hcb⟩
  · exact Or.inl ⟨p, a1, ha.symm⟩
  · cases c1 with
    | nil => exact Or.inl ⟨p, [], by simpa using hps⟩
    | cons x c2 =>
      simp only [List.cons_append, List.cons.injEq] at hcb
      obtain ⟨rfl, hb⟩ := hcb
      rcases List.append_eq_append_iff.mp hps with ⟨a2, hp, hsub⟩ | ⟨c3, ha, hsub⟩
      · exfalso; apply hc; rw [hsub]; simp
      · cases c3 with
        | nil =>
          exfalso; apply hc
          simp only [List.nil_append] at hsub
          rw [← hsub]; simp
        | cons y c4 =>
          simp only [List.cons_append, List.cons.injEq] at hsub
          obtain ⟨_, hc2⟩ := hsub
          exact Or.inr ⟨c4, r, by rw [hb, hc2]⟩

/-- The first occurrence: when `sub` does not occur in `p` followed by all
but the last character of `sub`, `Index` finds `sub` right after `p`. -/
theorem index_first (sub : GoString) (hsub : sub ≠ []) :
    ∀ (p r : GoString), ¬ sub <:+: p ++ sub.dropLast →
      Index (p ++ (sub ++ r)) sub = some p.length := by
  intro p
  induction p with
  | nil =>
    intro r _
    obtain ⟨i, hi, hle⟩ := index_of_occurrence sub [] r
    simp at hle
    subst hle
    simpa using hi
  | cons c p ih =>
    intro r hno
    have hp : ¬ HasPrefix (c :: (p ++ (sub ++ r))) sub = true := by
      rw [hasPrefix_iff]
      intro hpre
      apply hno
      have h2 : (c :: p) ++ sub.dropLast <+: c :: (p ++ (sub ++ r)) := by
        have : c :: (p ++ (sub ++ r)) = ((c :: p) ++ sub.dropLast) ++ (sub.getLast hsub :: r) := by
          conv_lhs => rw [← List.dropLast_append_getLast hsub]
          simp
        rw [this]
        exact List.prefix_append _ _
      have hlen : sub.length ≤ ((c :: p) ++ sub.dropLast).length := by
        simp; omega
      exact (List.prefix_of_prefix_length_le hpre h2 hlen).isInfix
    have hno2 : ¬ sub <:+: p ++ sub.dropLast := by
      intro h
      apply hno
      obtain ⟨a, b, hab⟩ := h
      exact ⟨c :: a, b, by simp [← hab]⟩
    simp [Index, hp, ih r hno2]

theorem not_contains_iff (s sub : GoString) : Contains s sub = false ↔ ¬ sub <:+: s := by
  rw [← contains_iff]; simp

/-- Appending a blank line to a string without the marker does not create
the marker. -/
theorem no_marker_append_blankLine (X : GoString)
    (h : Contains X revisionRequestMarker = false) :
    Contains (X ++ blankLine) revisionRequestMarker = false := by
  rw [not_contains_iff] at h ⊢
  intro hin
  have hc : '\n' ∉ revisionRequestMarker := by decide
  rcases infix_split_at _ X ['\n'] '\n' hc hin with h1 | h1
  · exact h h1
  · have := h1.length_le
    revert this
    decide

/-- C1: a string without the marker "Revision request:" is returned unchanged
by `parseCritique`; in particular such a string followed by "\n\n" is
returned unchanged, with its trailing blank line. -/
theorem parseCritique_no_marker (raw : GoString)
    (h : Contains raw revisionRequestMarker = false) :
    parseCritique raw = raw ∧
      parseCritique (raw ++ "\n\n".toList) = raw ++ "\n\n".toList := by
  have h1 : ∀ r : GoString, Contains r revisionRequestMarker = false →
      parseCritique r = r := by
    intro r hr
    simp [parseCritique, hr]
  exact ⟨h1 raw h, h1 _ (no_marker_append_blankLine raw h)⟩

theorem parseCritique_no_marker_witness :
    Contains " This text is bad.".toList revisionRequestMarker = false ∧
      parseCritique " This text is bad.".toList = " This text is bad.".toList ∧
      parseCritique (" This text is bad.".toList ++ "\n\n".toList) =
        " This text is bad.".toList ++ "\n\n".toList :=
  ⟨by decide, parseCritique_no_marker " This text is bad.".toList (by decide)⟩

theorem isBeforeFirst_unique (s sep p : GoString) (h : IsBeforeFirst s sep p) :
    Index s sep = some p.length ∧ p = s.take p.length := by
  obtain ⟨⟨rest, hs⟩, hmin⟩ := h
  obtain ⟨i, hi, hle⟩ := index_of_occurrence sep p rest
  rw [← hs] at hi
  obtain ⟨⟨r2, h2⟩, _⟩ := index_isBeforeFirst s sep i hi
  have hge := hmin _ _ h2
  have hlen : i + sep.length ≤ s.length := (index_some_split sep s i hi).2
  simp only [List.length_take] at hge
  have : i = p.length := by omega
  subst this
  refine ⟨hi, ?_⟩
  rw [hs]; simp

/-- C2: when `raw` contains the marker, there is exactly one part `p` of `raw`
before the first occurrence of "Revision request:"; `parseCritique raw` is `p`
when `p` contains no "\n\n", and otherwise it is the part of `p` before the
first occurrence of "\n\n". -/
theorem parseCritique_marker (raw : GoString)
    (h : Contains raw revisionRequestMarker = true) :
    ∃ p, IsBeforeFirst raw revisionRequestMarker p ∧
      (∀ p1, IsBeforeFirst raw revisionRequestMarker p1 → p1 = p) ∧
      (Contains p blankLine = false → parseCritique raw = p) ∧
      (Contains p blankLine = true → IsBeforeFirst p blankLine (parseCritique raw)) := by
  rw [Contains, Option.isSome_iff_exists] at h
  obtain ⟨i, hi⟩ := h
  have hlen : i + revisionRequestMarker.length ≤ raw.length := (index_some_split _ raw i hi).2
  refine ⟨raw.take i, index_isBeforeFirst raw _ i hi, ?_, ?_, ?_⟩
  · intro p1 hp1
    obtain ⟨h1, h2⟩ := isBeforeFirst_unique raw _ p1 hp1
    rw [hi] at h1
    cases h1
    exact h2
  · intro hc
    rw [parseCritique_eq, hi]
    simp only
    rw [Contains] at hc
    cases h2 : Index (List.take i raw) blankLine with
    | none => rfl
    | some j => simp [h2] at hc
  · intro hc
    rw [parseCritique_eq, hi]
    simp only
    rw [Contains, Option.isSome_iff_exists] at hc
    obtain ⟨j, hj⟩ := hc
    rw [hj]
    exact index_isBeforeFirst _ _ j hj

theorem parseCritique_marker_witness :
    ∃ p, IsBeforeFirst TEXT_ONE revisionRequestMarker p ∧
      (∀ p1, IsBeforeFirst TEXT_ONE revisionRequestMarker p1 → p1 = p) ∧
      (Contains p blankLine = false → parseCritique TEXT_ONE = p) ∧
      (Contains p blankLine = true → IsBeforeFirst p blankLine (parseCritique TEXT_ONE)) :=
  parseCritique_marker TEXT_ONE (by decide)

theorem no_blankLine_append_newline (X : GoString) (h : ¬ blankLine <:+: X)
    (hlast : X.getLast? ≠ some '\n') : ¬ blankLine <:+: X ++ ['\n'] := by
  rintro ⟨a, b, hab⟩
  rcases List.eq_nil_or_concat b with rfl | ⟨b1, x, rfl⟩
  · have h1 : (a ++ ['\n']) ++ ['\n'] = X ++ ['\n'] := by
      rw [← hab]; simp [blankLine]
    have h2 : a ++ ['\n'] = X := List.append_cancel_right h1
    apply hlast
    rw [← h2]; simp
  · have h1 : (a ++ blankLine ++ b1) ++ [x] = X ++ ['\n'] := by
      rw [← hab]; simp
    have h2 : a ++ blankLine ++ b1 = X := (List.append_inj' h1 rfl).1
    exact h ⟨a, b1, h2⟩

/-- C3 (as amended): when `X` contains neither "\n\n" nor the marker and does
not end in a newline, `parseCritique` of
`X ++ "\n\nRevision request: " ++ Y ++ "\n\nRevision: " ++ Z` is exactly `X`. -/
theorem parseCritique_critique_block (X Y Z : GoString)
    (hX : Contains X blankLine = false)
    (hM : Contains X revisionRequestMarker = false)
    (hlast : X.getLast? ≠ some '\n') :
    parseCritique
      (X ++ "\n\nRevision request: ".toList ++ Y ++ "\n\nRevision: ".toList ++ Z) = X := by
  rw [not_contains_iff] at hX hM
  have hraw : X ++ "\n\nRevision request: ".toList ++ Y ++ "\n\nRevision: ".toList ++ Z
      = (X ++ blankLine) ++
        (revisionRequestMarker ++ (' ' :: (Y ++ "\n\nRevision: ".toList ++ Z))) := by
    have : "\n\nRevision request: ".toList = blankLine ++ (revisionRequestMarker ++ [' ']) := by
      decide
    rw [this]; simp
  have hc : '\n' ∉ revisionRequestMarker := by decide
  have hfirst : ¬ revisionRequestMarker <:+: (X ++ blankLine) ++ revisionRequestMarker.dropLast := by
    intro hin
    have e : (X ++ blankLine) ++ revisionRequestMarker.dropLast
        = X ++ '\n' :: ('\n' :: revisionRequestMarker.dropLast) := by simp [blankLine]
    rw [e] at hin
    rcases infix_split_at _ _ _ _ hc hin with h1 | h1
    · exact hM h1
    · rcases infix_split_at _ [] _ _ hc h1 with h2 | h2
      · have := h2.length_le; revert this; decide
      · have := h2.length_le; revert this; decide
  have hi := index_first revisionRequestMarker marker_ne_nil (X ++ blankLine)
    (' ' :: (Y ++ "\n\nRevision: ".toList ++ Z)) hfirst
  have hj : Index (X ++ blankLine) blankLine = some X.length := by
    have := index_first blankLine blankLine_ne_nil X [] (by
      have e : blankLine.dropLast = ['\n'] := by decide
      rw [e]; exact no_blankLine_append_newline X hX hlast)
    simpa using this
  rw [parseCritique_eq, hraw, hi]
  simp only [List.take_left, hj]

theorem parseCritique_critique_block_witness :
    parseCritique
      ("This text is bad.".toList ++ "\n\nRevision request: ".toList ++ "Make it better.".toList
        ++ "\n\nRevision: ".toList ++ "Better text".toList) = "This text is bad.".toList :=
  parseCritique_critique_block "This text is bad.".toList "Make it better.".toList
    "Better text".toList (by decide) (by decide) (by decide)

/-- C3 fails as stated: `X = "a\n"` contains neither "\n\n" nor the marker,
yet `parseCritique` of `X ++ "\n\nRevision request: b\n\nRevision: c"` is
"a", not `X`. -/
theorem parseCritique_critique_block_counterexample :
    Contains "a\n".toList blankLine = false ∧
    Contains "a\n".toList revisionRequestMarker = false ∧
    parseCritique ("a\n".toList ++ "\n\nRevision request: ".toList ++ "b".toList
      ++ "\n\nRevision: ".toList ++ "c".toList) = "a".toList ∧
    parseCritique ("a\n".toList ++ "\n\nRevision request: ".toList ++ "b".toList
      ++ "\n\nRevision: ".toList ++ "c".toList) ≠ "a\n".toList := by
  decide

/-- C4: on the test's `TEXT_ONE` the trimmed parse is "This text is bad.", but
on `TEXT_TWO` and `TEXT_THREE` it keeps the newlines and tabs after the
sentence, so the equality the test requires fails for both. -/
theorem parseCritique_test_inputs :
    Trim (parseCritique TEXT_ONE) " ".toList = "This text is bad.".toList ∧
    Trim (parseCritique TEXT_TWO) " ".toList = "This text is bad.\n\n".toList ∧
    Trim (parseCritique TEXT_TWO) " ".toList ≠ "This text is bad.".toList ∧
    Trim (parseCritique TEXT_THREE) " ".toList = "This text is bad.\n\t\n\t".toList ∧
    Trim (parseCritique TEXT_THREE) " ".toList ≠ "This text is bad.".toList := by
  decide

/-- C5: on a string without the marker, applying `parseCritique` twice gives
the same as applying it once. -/
theorem parseCritique_idempotent_no_marker (x : GoString)
    (h : Contains x revisionRequestMarker = false) :
    parseCritique (parseCritique x) = parseCritique x := by
  have h1 : parseCritique x = x := by simp [parseCritique, h]
  rw [h1, h1]

theorem parseCritique_idempotent_no_marker_witness :
    parseCritique (parseCritique TEXT_TWO) = parseCritique TEXT_TWO :=
  parseCritique_idempotent_no_marker TEXT_TWO (by decide)

/-! ## Facts about `Call` -/

theorem finalOutput_get_output (b : Bool) (init : Value) (st : LoopState) :
    (finalOutput b init st).get "output".toList = some st.response := by
  cases b <;> simp [finalOutput, GoMap.get, GoMap.set, List.filter, List.lookup]

theorem finalOutput_get_pairs (init : Value) (st : LoopState) :
    (finalOutput true init st).get "critiques_and_revisions".toList =
      some (Value.pairs st.critiquesAndRevisions) := by
  simp [finalOutput, GoMap.get, GoMap.set, List.filter, List.lookup]

theorem finalOutput_get_initial (init : Value) (st : LoopState) :
    (finalOutput true init st).get "initial_output".toList = some init := by
  simp [finalOutput, GoMap.get, GoMap.set, List.filter, List.lookup]

/-- C6: with no principles, when the primary chain answers with a "text"
field and the prompt formats, `Call` succeeds, its "output" is the primary
chain's text, the trace is empty, and the only sub-chain call made is the one
to the primary chain. -/
theorem call_no_principles {σ : Type} (unicodeToLower : Char → Char) (c : Constitutional σ)
    (inputs result : GoMap) (w w1 : σ) (text inputPrompt : Value)
    (hp : c.constitutionalPrinciples = [])
    (hc : c.chain.Call inputs w = (ChainResult.ok result, w1))
    (ht : result.get textKey = some text)
    (hf : c.chain.Prompt.FormatPrompt inputs = PromptResult.ok inputPrompt) :
    ∃ m, (Call unicodeToLower c inputs w).result = Result.ok m ∧
      m = finalOutput c.returnIntermediateSteps text ⟨text, []⟩ ∧
      m.get "output".toList = some text ∧
      (c.returnIntermediateSteps = true →
        m.get "critiques_and_revisions".toList = some (Value.pairs [])) ∧
      (Call unicodeToLower c inputs w).calls = [⟨Callee.chain, inputs, ChainResult.ok result⟩] ∧
      (Call unicodeToLower c inputs w).world = w1 := by
  refine ⟨_, ?_, rfl, finalOutput_get_output _ _ _, ?_, ?_, ?_⟩
  · simp [Call, hc, ht, hf, hp, loop]
  · intro hb
    rw [hb]
    exact finalOutput_get_pairs _ _
  · simp [Call, hc, ht, hf, hp, loop]
  · simp [Call, hc, ht, hf, hp, loop]

theorem call_no_principles_witness :
    ∃ m, (Call id (stubConstitutional critiqueDraftOnly [] true) [] ()).result = Result.ok m ∧
      m = finalOutput true (Value.str "draft".toList) ⟨Value.str "draft".toList, []⟩ ∧
      m.get "output".toList = some (Value.str "draft".toList) ∧
      (true = true → m.get "critiques_and_revisions".toList = some (Value.pairs [])) ∧
      (Call id (stubConstitutional critiqueDraftOnly [] true) [] ()).calls =
        [⟨Callee.chain, [], textAnswer "draft".toList⟩] ∧
      (Call id (stubConstitutional critiqueDraftOnly [] true) [] ()).world = () :=
  call_no_principles id (stubConstitutional critiqueDraftOnly [] true) [] _ () ()
    (Value.str "draft".toList) (Value.str "Human: hi".toList) rfl rfl rfl rfl

/-- C7: when the trimmed, parsed critique contains "no critique needed"
ignoring case without being that very string, the loop body appends the one
entry (critique, "") to the trace, keeps the current response, and makes no
call besides the critique call: the revision chain is not called. -/
theorem loopBody_no_critique_substring {σ : Type} (unicodeToLower : Char → Char)
    (c : Constitutional σ) (inputPrompt : Value) (p : ConstitutionalPrinciple)
    (st : LoopState) (w w1 : σ) (rawCritique : GoMap) (output : GoString)
    (hc : c.critiqueChain.Call (critiqueInputs inputPrompt st.response p.critiqueRequest) w
      = (ChainResult.ok rawCritique, w1))
    (ht : rawCritique.get textKey = some (Value.str output))
    (hne : Trim (parseCritique output) space ≠ noCritiqueNeeded)
    (hsub : Contains (ToLower unicodeToLower (Trim (parseCritique output) space))
      noCritiqueNeeded = true) :
    (loopBody unicodeToLower c inputPrompt p st w).result =
      Result.ok ⟨st.response,
        st.critiquesAndRevisions ++ [⟨Trim (parseCritique output) space, []⟩]⟩ ∧
    (loopBody unicodeToLower c inputPrompt p st w).calls =
      [⟨Callee.critiqueChain, critiqueInputs inputPrompt st.response p.critiqueRequest,
        ChainResult.ok rawCritique⟩] ∧
    revisionCalls (loopBody unicodeToLower c inputPrompt p st w).calls = [] ∧
    (loopBody unicodeToLower c inputPrompt p st w).world = w1 := by
  have hne2 : ¬ noCritiqueNeeded = Trim (parseCritique output) space := fun h => hne h.symm
  simp [loopBody, hc, ht, hne2, hsub, revisionCalls]

theorem loopBody_no_critique_substring_witness :
    (loopBody id (stubConstitutional (fun _ => textAnswer "No critique needed.".toList)
        [testPrinciple] true) (Value.str "Human: hi".toList) testPrinciple
        ⟨Value.str "draft".toList, []⟩ ()).result =
      Result.ok ⟨Value.str "draft".toList, [] ++ [⟨"No critique needed.".toList, []⟩]⟩ ∧
    (loopBody id (stubConstitutional (fun _ => textAnswer "No critique needed.".toList)
        [testPrinciple] true) (Value.str "Human: hi".toList) testPrinciple
        ⟨Value.str "draft".toList, []⟩ ()).calls =
      [⟨Callee.critiqueChain,
        critiqueInputs (Value.str "Human: hi".toList) (Value.str "draft".toList)
          testPrinciple.critiqueRequest,
        textAnswer "No critique needed.".toList⟩] ∧
    revisionCalls (loopBody id (stubConstitutional
        (fun _ => textAnswer "No critique needed.".toList)
        [testPrinciple] true) (Value.str "Human: hi".toList) testPrinciple
        ⟨Value.str "draft".toList, []⟩ ()).calls = [] ∧
    (loopBody id (stubConstitutional (fun _ => textAnswer "No critique needed.".toList)
        [testPrinciple] true) (Value.str "Human: hi".toList) testPrinciple
        ⟨Value.str "draft".toList, []⟩ ()).world = () :=
  loopBody_no_critique_substring id
    (stubConstitutional (fun _ => textAnswer "No critique needed.".toList) [testPrinciple] true)
    (Value.str "Human: hi".toList) testPrinciple ⟨Value.str "draft".toList, []⟩ () ()
    [(textKey, Value.str "No critique needed.".toList)] "No critique needed.".toList
    rfl rfl (by decide) (by decide)

/-- C8 (as amended): when the trimmed, parsed critique is exactly the string
"no critique needed" (same case), the loop body appends nothing to the trace,
keeps the current response, and makes no call besides the critique call. -/
theorem loopBody_exact_match {σ : Type} (unicodeToLower : Char → Char)
    (c : Constitutional σ) (inputPrompt : Value) (p : ConstitutionalPrinciple)
    (st : LoopState) (w w1 : σ) (rawCritique : GoMap) (output : GoString)
    (hc : c.critiqueChain.Call (critiqueInputs inputPrompt st.response p.critiqueRequest) w
      = (ChainResult.ok rawCritique, w1))
    (ht : rawCritique.get textKey = some (Value.str output))
    (heq : Trim (parseCritique output) space = noCritiqueNeeded) :
    (loopBody unicodeToLower c inputPrompt p st w).result = Result.ok st ∧
    (loopBody unicodeToLower c inputPrompt p st w).calls =
      [⟨Callee.critiqueChain, critiqueInputs inputPrompt st.response p.critiqueRequest,
        ChainResult.ok rawCritique⟩] ∧
    revisionCalls (loopBody unicodeToLower c inputPrompt p st w).calls = [] ∧
    (loopBody unicodeToLower c inputPrompt p st w).world = w1 := by
  simp [loopBody, hc, ht, heq, revisionCalls]

theorem loopBody_exact_match_witness :
    (loopBody id (stubConstitutional (fun _ => textAnswer " no critique needed ".toList)
        [testPrinciple] true) (Value.str "Human: hi".toList) testPrinciple
        ⟨Value.str "draft".toList, []⟩ ()).result =
      Result.ok ⟨Value.str "draft".toList, []⟩ ∧
    (loopBody id (stubConstitutional (fun _ => textAnswer " no critique needed ".toList)
        [testPrinciple] true) (Value.str "Human: hi".toList) testPrinciple
        ⟨Value.str "draft".toList, []⟩ ()).calls =
      [⟨Callee.critiqueChain,
        critiqueInputs (Value.str "Human: hi".toList) (Value.str "draft".toList)
          testPrinciple.critiqueRequest,
        textAnswer " no critique needed ".toList⟩] ∧
    revisionCalls (loopBody id (stubConstitutional
        (fun _ => textAnswer " no critique needed ".toList)
        [testPrinciple] true) (Value.str "Human: hi".toList) testPrinciple
        ⟨Value.str "draft".toList, []⟩ ()).calls = [] ∧
    (loopBody id (stubConstitutional (fun _ => textAnswer " no critique needed ".toList)
        [testPrinciple] true) (Value.str "Human: hi".toList) testPrinciple
        ⟨Value.str "draft".toList, []⟩ ()).world = () :=
  loopBody_exact_match id
    (stubConstitutional (fun _ => textAnswer " no critique needed ".toList) [testPrinciple] true)
    (Value.str "Human: hi".toList) testPrinciple ⟨Value.str "draft".toList, []⟩ () ()
    [(textKey, Value.str " no critique needed ".toList)] " no critique needed ".toList
    rfl rfl (by decide)

/-- C8 fails as stated: the critique "No critique needed" equals "no critique
needed" when case is ignored, yet the loop body appends the entry
("No critique needed", "") to the trace. -/
theorem loopBody_exact_match_counterexample :
    ToLower id (Trim (parseCritique "No critique needed".toList) space) = noCritiqueNeeded ∧
    (loopBody id (stubConstitutional (fun _ => textAnswer "No critique needed".toList)
        [testPrinciple] true) (Value.str "Human: hi".toList) testPrinciple
        ⟨Value.str "draft".toList, []⟩ ()).result =
      Result.ok ⟨Value.str "draft".toList, [⟨"No critique needed".toList, []⟩]⟩ := by
  decide

theorem toLower_noCritiqueNeeded (unicodeToLower : Char → Char) :
    ToLower unicodeToLower noCritiqueNeeded = noCritiqueNeeded := by
  rfl

theorem ne_of_not_contains_lower (unicodeToLower : Char → Char) (critique : GoString)
    (hno : Contains (ToLower unicodeToLower critique) noCritiqueNeeded = false) :
    ¬ noCritiqueNeeded = critique := by
  intro h
  rw [← h, toLower_noCritiqueNeeded] at hno
  revert hno
  decide

/-- When the critique asks for a revision and the revision chain answers with
a string, `Call` with the single principle `p` runs to the end. -/
theorem single_revision_run {σ : Type} (unicodeToLower : Char → Char)
    (c : Constitutional σ) (inputs result rawCritique revResult : GoMap) (w w1 w2 w3 : σ)
    (text inputPrompt : Value) (p : ConstitutionalPrinciple) (output revision : GoString)
    (hp : c.constitutionalPrinciples = [p])
    (hc : c.chain.Call inputs w = (ChainResult.ok result, w1))
    (ht : result.get textKey = some text)
    (hf : c.chain.Prompt.FormatPrompt inputs = PromptResult.ok inputPrompt)
    (hcr : c.critiqueChain.Call (critiqueInputs inputPrompt text p.critiqueRequest) w1
      = (ChainResult.ok rawCritique, w2))
    (hct : rawCritique.get textKey = some (Value.str output))
    (hno : Contains (ToLower unicodeToLower (Trim (parseCritique output) space))
      noCritiqueNeeded = false)
    (hrv : c.revisionChain.Call [] w2 = (ChainResult.ok revResult, w3))
    (hrt : revResult.get textKey = some (Value.str revision)) :
    Call unicodeToLower c inputs w =
      ⟨Result.ok (finalOutput c.returnIntermediateSteps text
          ⟨Value.str (Trim revision space),
            [⟨Trim (parseCritique output) space, Trim revision space⟩]⟩),
        [⟨Callee.chain, inputs, ChainResult.ok result⟩,
          ⟨Callee.critiqueChain, critiqueInputs inputPrompt text p.critiqueRequest,
            ChainResult.ok rawCritique⟩,
          ⟨Callee.revisionChain, [], ChainResult.ok revResult⟩],
        w3⟩ := by
  have hne := ne_of_not_contains_lower unicodeToLower _ hno
  simp [Call, hc, ht, hf, hp, loop, loopBody, hcr, hct, hne, hno, hrv, hrt]

/-- C9: with a single principle whose parsed, trimmed critique does not
contain "no critique needed" ignoring case, every successful `Call` has called
the revision chain exactly once (after the primary and the critique call),
its "output" is the revision chain's text trimmed of surrounding spaces, and
its trace is the one entry (critique, trimmed revision). -/
theorem call_single_revision {σ : Type} (unicodeToLower : Char → Char)
    (c : Constitutional σ) (inputs result rawCritique m : GoMap) (w w1 w2 : σ)
    (text inputPrompt : Value) (p : ConstitutionalPrinciple) (output : GoString)
    (hp : c.constitutionalPrinciples = [p])
    (hc : c.chain.Call inputs w = (ChainResult.ok result, w1))
    (ht : result.get textKey = some text)
    (hf : c.chain.Prompt.FormatPrompt inputs = PromptResult.ok inputPrompt)
    (hcr : c.critiqueChain.Call (critiqueInputs inputPrompt text p.critiqueRequest) w1
      = (ChainResult.ok rawCritique, w2))
    (hct : rawCritique.get textKey = some (Value.str output))
    (hno : Contains (ToLower unicodeToLower (Trim (parseCritique output) space))
      noCritiqueNeeded = false)
    (hs : (Call unicodeToLower c inputs w).result = Result.ok m) :
    ∃ revResult revision,
      (c.revisionChain.Call [] w2).1 = ChainResult.ok revResult ∧
      revResult.get textKey = some (Value.str revision) ∧
      (Call unicodeToLower c inputs w).calls =
        [⟨Callee.chain, inputs, ChainResult.ok result⟩,
          ⟨Callee.critiqueChain, critiqueInputs inputPrompt text p.critiqueRequest,
            ChainResult.ok rawCritique⟩,
          ⟨Callee.revisionChain, [], ChainResult.ok revResult⟩] ∧
      revisionCalls (Call unicodeToLower c inputs w).calls =
        [⟨Callee.revisionChain, [], ChainResult.ok revResult⟩] ∧
      m = finalOutput c.returnIntermediateSteps text
          ⟨Value.str (Trim revision space),
            [⟨Trim (parseCritique output) space, Trim revision space⟩]⟩ ∧
      m.get "output".toList = some (Value.str (Trim revision space)) ∧
      (c.returnIntermediateSteps = true →
        m.get "critiques_and_revisions".toList =
          some (Value.pairs [⟨Trim (parseCritique output) space, Trim revision space⟩])) := by
  have hne := ne_of_not_contains_lower unicodeToLower _ hno
  rcases hrv : c.revisionChain.Call [] w2 with ⟨res, w3⟩
  cases res with
  | err e => simp [Call, hc, ht, hf, hp, loop, loopBody, hcr, hct, hne, hno, hrv] at hs
  | ok revResult =>
    cases hrt : revResult.get textKey with
    | none => simp [Call, hc, ht, hf, hp, loop, loopBody, hcr, hct, hne, hno, hrv, hrt] at hs
    | some v =>
      cases v with
      | pairs ps =>
        simp [Call, hc, ht, hf, hp, loop, loopBody, hcr, hct, hne, hno, hrv, hrt] at hs
      | other tag =>
        simp [Call, hc, ht, hf, hp, loop, loopBody, hcr, hct, hne, hno, hrv, hrt] at hs
      | str revision =>
        have hrun := single_revision_run unicodeToLower c inputs result rawCritique
          revResult w w1 w2 w3 text inputPrompt p output revision hp hc ht hf hcr hct hno hrv hrt
        rw [hrun] at hs ⊢
        simp only [Result.ok.injEq] at hs
        subst hs
        refine ⟨revResult, revision, rfl, hrt, rfl, ?_, rfl, finalOutput_get_output _ _ _, ?_⟩
        · simp [revisionCalls]
        · intro hb
          rw [hb]
          exact finalOutput_get_pairs _ _

theorem call_single_revision_witness :
    ∃ revResult revision,
      ((stubConstitutional critiqueDraftOnly [testPrinciple] true).revisionChain.Call [] ()).1
        = ChainResult.ok revResult ∧
      revResult.get textKey = some (Value.str revision) ∧
      (Call id (stubConstitutional critiqueDraftOnly [testPrinciple] true) [] ()).calls =
        [⟨Callee.chain, [], textAnswer "draft".toList⟩,
          ⟨Callee.critiqueChain,
            critiqueInputs (Value.str "Human: hi".toList) (Value.str "draft".toList)
              testPrinciple.critiqueRequest,
            textAnswer "Needs fixing. Revision request: clarify. Revision:".toList⟩,
          ⟨Callee.revisionChain, [], ChainResult.ok revResult⟩] ∧
      revisionCalls (Call id (stubConstitutional critiqueDraftOnly [testPrinciple] true) [] ()).calls
        = [⟨Callee.revisionChain, [], ChainResult.ok revResult⟩] ∧
      [("output".toList, Value.str "revised".toList),
        ("initial_output".toList, Value.str "draft".toList),
        ("critiques_and_revisions".toList,
          Value.pairs [⟨"Needs fixing.".toList, "revised".toList⟩])]
        = finalOutput true (Value.str "draft".toList)
          ⟨Value.str (Trim revision space),
            [⟨Trim (parseCritique
                "Needs fixing. Revision request: clarify. Revision:".toList) space,
              Trim revision space⟩]⟩ ∧
      GoMap.get [("output".toList, Value.str "revised".toList),
        ("initial_output".toList, Value.str "draft".toList),
        ("critiques_and_revisions".toList,
          Value.pairs [⟨"Needs fixing.".toList, "revised".toList⟩])] "output".toList
        = some (Value.str (Trim revision space)) ∧
      (true = true →
        GoMap.get [("output".toList, Value.str "revised".toList),
          ("initial_output".toList, Value.str "draft".toList),
          ("critiques_and_revisions".toList,
            Value.pairs [⟨"Needs fixing.".toList, "revised".toList⟩])]
          "critiques_and_revisions".toList =
          some (Value.pairs [⟨Trim (parseCritique
              "Needs fixing. Revision request: clarify. Revision:".toList) space,
            Trim revision space⟩])) :=
  call_single_revision id (stubConstitutional critiqueDraftOnly [testPrinciple] true) []
    [(textKey, Value.str "draft".toList)]
    [(textKey, Value.str "Needs fixing. Revision request: clarify. Revision:".toList)]
    [("output".toList, Value.str "revised".toList),
      ("initial_output".toList, Value.str "draft".toList),
      ("critiques_and_revisions".toList,
        Value.pairs [⟨"Needs fixing.".toList, "revised".toList⟩])]
    () () () (Value.str "draft".toList) (Value.str "Human: hi".toList) testPrinciple
    "Needs fixing. Revision request: clarify. Revision:".toList
    rfl rfl rfl rfl rfl rfl (by decide) (by decide)

/-! ### The sequence of critique calls -/

theorem critiqueCallInputs_revisions (tail rest : List CallEvent)
    (h : ∀ ev ∈ tail, ev.callee = Callee.revisionChain) :
    critiqueCallInputs (tail ++ rest) = critiqueCallInputs rest := by
  induction tail with
  | nil => rfl
  | cons ev tail ih =>
    have hev : ev.callee = Callee.revisionChain := h ev (List.mem_cons_self _ _)
    have ih2 := ih (fun e he => h e (List.mem_cons_of_mem _ he))
    simp only [critiqueCallInputs] at ih2 ⊢
    rw [List.cons_append, List.filter_cons_of_neg (by simp [hev])]
    exact ih2

theorem responsesAtCritiques_revisions (tail rest : List CallEvent)
    (h : ∀ ev ∈ tail, ev.callee = Callee.revisionChain) :
    ∀ current : Value, responsesAtCritiques current (tail ++ rest) =
      responsesAtCritiques (currentResponseAfter current tail) rest := by
  induction tail with
  | nil => intro current; rfl
  | cons ev tail ih =>
    intro current
    have hev : ev.callee = Callee.revisionChain := h ev (List.mem_cons_self _ _)
    have ih2 := ih (fun e he => h e (List.mem_cons_of_mem _ he))
    simp [responsesAtCritiques, hev, currentResponseAfter, ih2]

/-- The calls of one run of the loop body: first the critique call, with the
current response as "output_from_model", then at most a revision call; when
the body completes, the new response is the one the revision (if any) gave. -/
theorem loopBody_calls {σ : Type} (unicodeToLower : Char → Char) (c : Constitutional σ)
    (inputPrompt : Value) (p : ConstitutionalPrinciple) (st : LoopState) (w : σ) :
    ∃ res tail,
      (loopBody unicodeToLower c inputPrompt p st w).calls =
        ⟨Callee.critiqueChain, critiqueInputs inputPrompt st.response p.critiqueRequest, res⟩
          :: tail ∧
      (∀ ev ∈ tail, ev.callee = Callee.revisionChain) ∧
      (∀ st1, (loopBody unicodeToLower c inputPrompt p st w).result = Result.ok st1 →
        st1.response = currentResponseAfter st.response tail) := by
  rcases hc : c.critiqueChain.Call (critiqueInputs inputPrompt st.response p.critiqueRequest) w
    with ⟨res, w1⟩
  cases res with
  | err e =>
    exact ⟨ChainResult.err e, [], by simp [loopBody, hc], by simp, by simp [loopBody, hc]⟩
  | ok raw =>
    cases ht : raw.get textKey with
    | none =>
      exact ⟨ChainResult.ok raw, [], by simp [loopBody, hc, ht], by simp,
        by simp [loopBody, hc, ht]⟩
    | some v =>
      cases v with
      | pairs ps =>
        exact ⟨ChainResult.ok raw, [], by simp [loopBody, hc, ht], by simp,
          by simp [loopBody, hc, ht]⟩
      | other tag =>
        exact ⟨ChainResult.ok raw, [], by simp [loopBody, hc, ht], by simp,
          by simp [loopBody, hc, ht]⟩
      | str output =>
        by_cases h1 : noCritiqueNeeded = Trim (parseCritique output) space
        · refine ⟨ChainResult.ok raw, [], by simp [loopBody, hc, ht, h1.symm], by simp, ?_⟩
          intro st1 hst
          simp [loopBody, hc, ht, h1.symm] at hst
          simp [← hst, currentResponseAfter]
        · by_cases h2 : Contains (ToLower unicodeToLower (Trim (parseCritique output) space))
              noCritiqueNeeded = true
          · refine ⟨ChainResult.ok raw, [], by simp [loopBody, hc, ht, h1, h2], by simp, ?_⟩
            intro st1 hst
            simp [loopBody, hc, ht, h1, h2] at hst
            simp [← hst, currentResponseAfter]
          · rcases hrv : c.revisionChain.Call [] w1 with ⟨res2, w2⟩
            refine ⟨ChainResult.ok raw, [⟨Callee.revisionChain, [], res2⟩], ?_, by simp, ?_⟩
            · cases res2 with
              | err e => simp [loopBody, hc, ht, h1, h2, hrv]
              | ok result =>
                cases hrt : result.get textKey with
                | none => simp [loopBody, hc, ht, h1, h2, hrv, hrt]
                | some v2 => cases v2 <;> simp [loopBody, hc, ht, h1, h2, hrv, hrt]
            · intro st1 hst
              cases res2 with
              | err e => simp [loopBody, hc, ht, h1, h2, hrv] at hst
              | ok result =>
                cases hrt : result.get textKey with
                | none => simp [loopBody, hc, ht, h1, h2, hrv, hrt] at hst
                | some v2 =>
                  cases v2 with
                  | pairs ps => simp [loopBody, hc, ht, h1, h2, hrv, hrt] at hst
                  | other tag => simp [loopBody, hc, ht, h1, h2, hrv, hrt] at hst
                  | str revision =>
                    simp [loopBody, hc, ht, h1, h2, hrv, hrt] at hst
                    simp [← hst, currentResponseAfter, revisedText, hrt]

theorem loop_cons {σ : Type} (unicodeToLower : Char → Char) (c : Constitutional σ)
    (inputPrompt : Value) (p : ConstitutionalPrinciple) (ps : List ConstitutionalPrinciple)
    (st : LoopState) (w : σ) :
    loop unicodeToLower c inputPrompt (p :: ps) st w =
      match (loopBody unicodeToLower c inputPrompt p st w).result with
      | Result.ok st1 =>
        ⟨(loop unicodeToLower c inputPrompt ps st1
            (loopBody unicodeToLower c inputPrompt p st w).world).result,
          (loopBody unicodeToLower c inputPrompt p st w).calls ++
            (loop unicodeToLower c inputPrompt ps st1
              (loopBody unicodeToLower c inputPrompt p st w).world).calls,
          (loop unicodeToLower c inputPrompt ps st1
            (loopBody unicodeToLower c inputPrompt p st w).world).world⟩
      | Result.error e =>
        ⟨Result.error e, (loopBody unicodeToLower c inputPrompt p st w).calls,
          (loopBody unicodeToLower c inputPrompt p st w).world⟩
      | Result.panic =>
        ⟨Result.panic, (loopBody unicodeToLower c inputPrompt p st w).calls,
          (loopBody unicodeToLower c inputPrompt p st w).world⟩ := by
  rfl

theorem critiqueCallInputs_cons_critique (inputs : GoMap) (res : ChainResult)
    (rest : List CallEvent) :
    critiqueCallInputs (⟨Callee.critiqueChain, inputs, res⟩ :: rest) =
      inputs :: critiqueCallInputs rest := by
  simp [critiqueCallInputs, List.filter]

theorem responsesAtCritiques_cons_critique (current : Value) (inputs : GoMap)
    (res : ChainResult) (rest : List CallEvent) :
    responsesAtCritiques current (⟨Callee.critiqueChain, inputs, res⟩ :: rest) =
      current :: responsesAtCritiques current rest := by
  simp [responsesAtCritiques]

/-- In every run of the loop, finished or not, the critique calls made are
those for the leading principles, each with the current response of its
time. -/
theorem loop_critique_inputs {σ : Type} (unicodeToLower : Char → Char) (c : Constitutional σ)
    (inputPrompt : Value) :
    ∀ (ps : List ConstitutionalPrinciple) (st : LoopState) (w : σ),
      critiqueCallInputs (loop unicodeToLower c inputPrompt ps st w).calls =
        List.zipWith (fun p resp => critiqueInputs inputPrompt resp p.critiqueRequest) ps
          (responsesAtCritiques st.response (loop unicodeToLower c inputPrompt ps st w).calls) := by
  intro ps
  induction ps with
  | nil => intro st w; rfl
  | cons p ps ih =>
    intro st w
    obtain ⟨res, tail, hcalls, htail, hresp⟩ := loopBody_calls unicodeToLower c inputPrompt p st w
    rw [loop_cons]
    cases hr : (loopBody unicodeToLower c inputPrompt p st w).result with
    | ok st1 =>
      simp only [hcalls, List.cons_append]
      rw [critiqueCallInputs_cons_critique, responsesAtCritiques_cons_critique,
        critiqueCallInputs_revisions _ _ htail, responsesAtCritiques_revisions _ _ htail,
        ← hresp st1 hr, List.zipWith_cons_cons, ih]
    | error e =>
      simp only [hcalls]
      have h1 := critiqueCallInputs_revisions tail [] htail
      have h2 := responsesAtCritiques_revisions tail [] htail st.response
      simp only [List.append_nil] at h1 h2
      rw [critiqueCallInputs_cons_critique, responsesAtCritiques_cons_critique, h1, h2]
      simp [critiqueCallInputs, responsesAtCritiques]
    | panic =>
      simp only [hcalls]
      have h1 := critiqueCallInputs_revisions tail [] htail
      have h2 := responsesAtCritiques_revisions tail [] htail st.response
      simp only [List.append_nil] at h1 h2
      rw [critiqueCallInputs_cons_critique, responsesAtCritiques_cons_critique, h1, h2]
      simp [critiqueCallInputs, responsesAtCritiques]

/-- A loop that runs to the end has called the critique chain once for each
principle. -/
theorem loop_critique_count {σ : Type} (unicodeToLower : Char → Char) (c : Constitutional σ)
    (inputPrompt : Value) :
    ∀ (ps : List ConstitutionalPrinciple) (st st2 : LoopState) (w : σ),
      (loop unicodeToLower c inputPrompt ps st w).result = Result.ok st2 →
      (critiqueCallInputs (loop unicodeToLower c inputPrompt ps st w).calls).length
        = ps.length := by
  intro ps
  induction ps with
  | nil => intro st st2 w _; rfl
  | cons p ps ih =>
    intro st st2 w hok
    obtain ⟨res, tail, hcalls, htail, _⟩ := loopBody_calls unicodeToLower c inputPrompt p st w
    rw [loop_cons] at hok ⊢
    cases hr : (loopBody unicodeToLower c inputPrompt p st w).result with
    | ok st1 =>
      rw [hr] at hok
      simp only at hok
      simp only [hcalls, List.cons_append]
      rw [critiqueCallInputs_cons_critique, critiqueCallInputs_revisions _ _ htail,
        List.length_cons, ih st1 st2 _ hok]
      rfl
    | error e => rw [hr] at hok; simp at hok
    | panic => rw [hr] at hok; simp at hok

/-- Once the primary chain has answered with a text and the prompt is
formatted, the calls of `Call` are the primary call followed by the calls of
the loop, and `Call` succeeds exactly when the loop runs to the end. -/
theorem call_calls {σ : Type} (unicodeToLower : Char → Char) (c : Constitutional σ)
    (inputs result : GoMap) (w w1 : σ) (text inputPrompt : Value)
    (hc : c.chain.Call inputs w = (ChainResult.ok result, w1))
    (ht : result.get textKey = some text)
    (hf : c.chain.Prompt.FormatPrompt inputs = PromptResult.ok inputPrompt) :
    (Call unicodeToLower c inputs w).calls =
      ⟨Callee.chain, inputs, ChainResult.ok result⟩ ::
        (loop unicodeToLower c inputPrompt c.constitutionalPrinciples ⟨text, []⟩ w1).calls ∧
    (∀ m, (Call unicodeToLower c inputs w).result = Result.ok m →
      ∃ st, (loop unicodeToLower c inputPrompt c.constitutionalPrinciples ⟨text, []⟩ w1).result
        = Result.ok st ∧ m = finalOutput c.returnIntermediateSteps text st) := by
  cases hl : (loop unicodeToLower c inputPrompt c.constitutionalPrinciples ⟨text, []⟩ w1).result
    <;> simp [Call, hc, ht, hf, hl]

/-- C10: the critique-chain calls of `Call` are made for the principles in
declared order, each with the principle's critique request and, as
"output_from_model", the current response at that point: the primary chain's
text, or the trimmed text of the most recent revision; and a successful
`Call` has made exactly one critique call per principle. -/
theorem call_critique_inputs {σ : Type} (unicodeToLower : Char → Char) (c : Constitutional σ)
    (inputs result : GoMap) (w w1 : σ) (text inputPrompt : Value)
    (hc : c.chain.Call inputs w = (ChainResult.ok result, w1))
    (ht : result.get textKey = some text)
    (hf : c.chain.Prompt.FormatPrompt inputs = PromptResult.ok inputPrompt) :
    critiqueCallInputs (Call unicodeToLower c inputs w).calls =
      List.zipWith (fun p resp => critiqueInputs inputPrompt resp p.critiqueRequest)
        c.constitutionalPrinciples
        (responsesAtCritiques text (Call unicodeToLower c inputs w).calls) ∧
    (∀ m, (Call unicodeToLower c inputs w).result = Result.ok m →
      (critiqueCallInputs (Call unicodeToLower c inputs w).calls).length
        = c.constitutionalPrinciples.length) := by
  obtain ⟨hcalls, hres⟩ := call_calls unicodeToLower c inputs result w w1 text inputPrompt hc ht hf
  have e1 : critiqueCallInputs (Call unicodeToLower c inputs w).calls =
      critiqueCallInputs
        (loop unicodeToLower c inputPrompt c.constitutionalPrinciples ⟨text, []⟩ w1).calls := by
    rw [hcalls]; simp [critiqueCallInputs, List.filter]
  have e2 : responsesAtCritiques text (Call unicodeToLower c inputs w).calls =
      responsesAtCritiques text
        (loop unicodeToLower c inputPrompt c.constitutionalPrinciples ⟨text, []⟩ w1).calls := by
    rw [hcalls]; simp [responsesAtCritiques, revisedText]
  refine ⟨?_, ?_⟩
  · rw [e1, e2]
    exact loop_critique_inputs unicodeToLower c inputPrompt c.constitutionalPrinciples
      ⟨text, []⟩ w1
  · intro m hm
    obtain ⟨st, hst, _⟩ := hres m hm
    rw [e1]
    exact loop_critique_count unicodeToLower c inputPrompt c.constitutionalPrinciples
      ⟨text, []⟩ st w1 hst

theorem call_critique_inputs_witness :
    (critiqueCallInputs
        (Call id (stubConstitutional critiqueDraftOnly [testPrinciple, stylePrinciple] true)
          [] ()).calls =
      List.zipWith
        (fun p resp => critiqueInputs (Value.str "Human: hi".toList) resp p.critiqueRequest)
        (stubConstitutional critiqueDraftOnly [testPrinciple, stylePrinciple]
          true).constitutionalPrinciples
        (responsesAtCritiques (Value.str "draft".toList)
          (Call id (stubConstitutional critiqueDraftOnly [testPrinciple, stylePrinciple] true)
            [] ()).calls) ∧
      (∀ m, (Call id (stubConstitutional critiqueDraftOnly [testPrinciple, stylePrinciple] true)
          [] ()).result = Result.ok m →
        (critiqueCallInputs
          (Call id (stubConstitutional critiqueDraftOnly [testPrinciple, stylePrinciple] true)
            [] ()).calls).length
          = (stubConstitutional critiqueDraftOnly [testPrinciple, stylePrinciple]
              true).constitutionalPrinciples.length)) ∧
    critiqueCallInputs
        (Call id (stubConstitutional critiqueDraftOnly [testPrinciple, stylePrinciple] true)
          [] ()).calls =
      [critiqueInputs (Value.str "Human: hi".toList) (Value.str "draft".toList)
          testPrinciple.critiqueRequest,
        critiqueInputs (Value.str "Human: hi".toList) (Value.str "revised".toList)
          stylePrinciple.critiqueRequest] :=
  ⟨call_critique_inputs id
      (stubConstitutional critiqueDraftOnly [testPrinciple, stylePrinciple] true) []
      [(textKey, Value.str "draft".toList)] () () (Value.str "draft".toList)
      (Value.str "Human: hi".toList) rfl rfl rfl,
    by decide⟩

/-! ## Further facts about `parseCritique` -/

/-- The text before the first occurrence of `sub` does not contain `sub`. -/
theorem not_infix_take_index (s sub : GoString) (i : Nat) (hsub : sub ≠ [])
    (h : Index s sub = some i) : ¬ sub <:+: s.take i := by
  rintro ⟨a, b, hab⟩
  have hs : s = a ++ (sub ++ (b ++ s.drop i)) := by
    conv_lhs => rw [← List.take_append_drop i s, ← hab]
    simp
  obtain ⟨j, hj, hle⟩ := index_of_occurrence sub a (b ++ s.drop i)
  rw [← hs, h] at hj
  cases hj
  have hlen := congrArg List.length hab
  simp only [List.length_append, List.length_take] at hlen
  have : 0 < sub.length := List.length_pos.mpr hsub
  omega

/-- The result of `parseCritique` is an initial segment of its argument. -/
theorem parseCritique_initial_segment (raw : GoString) : parseCritique raw <+: raw := by
  rw [parseCritique_eq]
  cases Index raw revisionRequestMarker with
  | none => exact List.prefix_refl _
  | some i =>
    simp only
    cases Index (List.take i raw) blankLine with
    | none => exact List.take_prefix _ _
    | some j => exact (List.take_prefix _ _).trans (List.take_prefix _ _)

/-- When `raw` contains the marker, the result of `parseCritique` contains
neither the marker nor a blank line. -/
theorem parseCritique_clean (raw : GoString)
    (h : Contains raw revisionRequestMarker = true) :
    Contains (parseCritique raw) revisionRequestMarker = false ∧
      Contains (parseCritique raw) blankLine = false := by
  rw [Contains, Option.isSome_iff_exists] at h
  obtain ⟨i, hi⟩ := h
  have hm : ¬ revisionRequestMarker <:+: raw.take i :=
    not_infix_take_index raw _ i marker_ne_nil hi
  rw [parseCritique_eq, hi]
  simp only
  cases hj : Index (List.take i raw) blankLine with
  | none =>
    simp only
    exact ⟨(not_contains_iff _ _).mpr hm, by simp [Contains, hj]⟩
  | some j =>
    simp only
    refine ⟨(not_contains_iff _ _).mpr ?_, (not_contains_iff _ _).mpr ?_⟩
    · intro hin
      exact hm (hin.trans (List.take_prefix _ _).isInfix)
    · exact not_infix_take_index _ _ j blankLine_ne_nil hj

/-- C17: `parseCritique raw` is always an initial segment of `raw`, and when
`raw` contains "Revision request:" the result contains neither "Revision
request:" nor "\n\n". -/
theorem parseCritique_invariants (raw : GoString) :
    parseCritique raw <+: raw ∧
      (Contains raw revisionRequestMarker = true →
        Contains (parseCritique raw) revisionRequestMarker = false ∧
          Contains (parseCritique raw) blankLine = false) :=
  ⟨parseCritique_initial_segment raw, parseCritique_clean raw⟩

theorem parseCritique_invariants_witness :
    parseCritique TEXT_ONE <+: TEXT_ONE ∧
      Contains TEXT_ONE revisionRequestMarker = true ∧
      Contains (parseCritique TEXT_ONE) revisionRequestMarker = false ∧
      Contains (parseCritique TEXT_ONE) blankLine = false :=
  ⟨(parseCritique_invariants TEXT_ONE).1, by decide,
    (parseCritique_invariants TEXT_ONE).2 (by decide)⟩

/-- C18: `parseCritique` applied twice gives the same as applied once, for
every string, with or without the marker. -/
theorem parseCritique_twice (raw : GoString) :
    parseCritique (parseCritique raw) = parseCritique raw := by
  cases h : Contains raw revisionRequestMarker with
  | false =>
    have h1 : parseCritique raw = raw := by simp [parseCritique, h]
    rw [h1, h1]
  | true =>
    have h2 := (parseCritique_clean raw h).1
    generalize parseCritique raw = x at h2
    simp [parseCritique, h2]

/-! ## Where `Call` stops -/

theorem firstStop_append (l1 l2 : List CallEvent) :
    firstStop (l1 ++ l2) =
      match firstStop l1 with
      | some (a, rest) => some (a, rest ++ l2)
      | none => firstStop l2 := by
  induction l1 with
  | nil => rfl
  | cons ev l1 ih =>
    simp only [List.cons_append, firstStop]
    cases stopsWith ev with
    | none => exact ih
    | some a => rfl

/-- In a log whose first stopping call is its last call, every call that
stops is that last call. -/
theorem firstStop_last (ev : CallEvent) (post : List CallEvent) (a b : Abort) :
    ∀ pre : List CallEvent, firstStop (pre ++ ev :: post) = some (a, []) →
      stopsWith ev = some b → post = [] ∧ a = b := by
  intro pre
  induction pre with
  | nil =>
    intro h hb
    simp [firstStop, hb] at h
    exact ⟨h.2, h.1.symm⟩
  | cons x pre ih =>
    intro h hb
    simp only [List.cons_append, firstStop] at h
    cases hx : stopsWith x with
    | none => rw [hx] at h; exact ih h hb
    | some a2 => rw [hx] at h; simp at h

theorem firstStop_none (ev : CallEvent) (post : List CallEvent) :
    ∀ pre : List CallEvent, firstStop (pre ++ ev :: post) = none → stopsWith ev = none := by
  intro pre
  induction pre with
  | nil =>
    intro h
    simp only [List.nil_append, firstStop] at h
    cases hx : stopsWith ev with
    | none => rfl
    | some a => rw [hx] at h; simp at h
  | cons x pre ih =>
    intro h
    simp only [List.cons_append, firstStop] at h
    cases hx : stopsWith x with
    | none => rw [hx] at h; exact ih h
    | some a2 => rw [hx] at h; simp at h

theorem abort_eq_error {α : Type} (r : Result α) (e : GoError)
    (h : r.abort = some (Abort.error e)) : r = Result.error e := by
  cases r <;> simp [Result.abort] at h
  rw [h]

theorem abort_eq_none {α : Type} (r : Result α) (a : α) (h : r = Result.ok a) :
    r.abort = none := by
  rw [h]; rfl

/-- The loop body stops exactly at the last call it makes, if it stops. -/
theorem loopBody_firstStop {σ : Type} (unicodeToLower : Char → Char) (c : Constitutional σ)
    (inputPrompt : Value) (p : ConstitutionalPrinciple) (st : LoopState) (w : σ) :
    firstStop (loopBody unicodeToLower c inputPrompt p st w).calls =
      (loopBody unicodeToLower c inputPrompt p st w).result.abort.map (fun a => (a, [])) := by
  rcases hc : c.critiqueChain.Call (critiqueInputs inputPrompt st.response p.critiqueRequest) w
    with ⟨res, w1⟩
  cases res with
  | err e => simp [loopBody, hc, firstStop, stopsWith, Result.abort]
  | ok raw =>
    cases ht : raw.get textKey with
    | none => simp [loopBody, hc, ht, firstStop, stopsWith, Result.abort]
    | some v =>
      cases v with
      | pairs ps => simp [loopBody, hc, ht, firstStop, stopsWith, Result.abort]
      | other tag => simp [loopBody, hc, ht, firstStop, stopsWith, Result.abort]
      | str output =>
        by_cases h1 : noCritiqueNeeded = Trim (parseCritique output) space
        · simp [loopBody, hc, ht, h1.symm, firstStop, stopsWith, Result.abort]
        · by_cases h2 : Contains (ToLower unicodeToLower (Trim (parseCritique output) space))
              noCritiqueNeeded = true
          · simp [loopBody, hc, ht, h1, h2, firstStop, stopsWith, Result.abort]
          · rcases hrv : c.revisionChain.Call [] w1 with ⟨res2, w2⟩
            cases res2 with
            | err e => simp [loopBody, hc, ht, h1, h2, hrv, firstStop, stopsWith, Result.abort]
            | ok result =>
              cases hrt : result.get textKey with
              | none =>
                simp [loopBody, hc, ht, h1, h2, hrv, hrt, firstStop, stopsWith, Result.abort]
              | some v2 =>
                cases v2 <;>
                  simp [loopBody, hc, ht, h1, h2, hrv, hrt, firstStop, stopsWith, Result.abort]

/-- The loop stops exactly at the last call it makes, if it stops. -/
theorem loop_firstStop {σ : Type} (unicodeToLower : Char → Char) (c : Constitutional σ)
    (inputPrompt : Value) :
    ∀ (ps : List ConstitutionalPrinciple) (st : LoopState) (w : σ),
      firstStop (loop unicodeToLower c inputPrompt ps st w).calls =
        (loop unicodeToLower c inputPrompt ps st w).result.abort.map (fun a => (a, [])) := by
  intro ps
  induction ps with
  | nil => intro st w; rfl
  | cons p ps ih =>
    intro st w
    have hb := loopBody_firstStop unicodeToLower c inputPrompt p st w
    rw [loop_cons]
    cases hr : (loopBody unicodeToLower c inputPrompt p st w).result with
    | ok st1 =>
      rw [hr] at hb
      simp only [firstStop_append, hb, Result.abort, Option.map_none']
      exact ih st1 _
    | error e => rw [hr] at hb; simpa [Result.abort] using hb
    | panic => rw [hr] at hb; simpa [Result.abort] using hb

/-- The calls of `Call` either hold no stopping call, or the first stopping
call is the last call and decides the result. -/
theorem call_firstStop {σ : Type} (unicodeToLower : Char → Char) (c : Constitutional σ)
    (inputs : GoMap) (w : σ) :
    firstStop (Call unicodeToLower c inputs w).calls = none ∨
      firstStop (Call unicodeToLower c inputs w).calls =
        (Call unicodeToLower c inputs w).result.abort.map (fun a => (a, [])) := by
  rcases hc : c.chain.Call inputs w with ⟨res, w1⟩
  cases res with
  | err e => right; simp [Call, hc, firstStop, stopsWith, Result.abort]
  | ok result =>
    cases ht : result.get textKey with
    | none => right; simp [Call, hc, ht, firstStop, stopsWith, Result.abort]
    | some text =>
      have h0 : stopsWith ⟨Callee.chain, inputs, ChainResult.ok result⟩ = none := by
        cases text <;> simp [stopsWith, ht]
      cases hf : c.chain.Prompt.FormatPrompt inputs with
      | err e => left; simp [Call, hc, ht, hf, firstStop, h0]
      | ok inputPrompt =>
        right
        have hl := loop_firstStop unicodeToLower c inputPrompt c.constitutionalPrinciples
          ⟨text, []⟩ w1
        cases hr : (loop unicodeToLower c inputPrompt c.constitutionalPrinciples
            ⟨text, []⟩ w1).result <;>
          rw [hr] at hl <;>
          simp [Call, hc, ht, hf, hr, firstStop, h0, hl, Result.abort]

/-- A call whose response stops `Call` is the last call made, and it decides
how `Call` ends. -/
theorem call_stop {σ : Type} (unicodeToLower : Char → Char) (c : Constitutional σ)
    (inputs : GoMap) (w : σ) (pre post : List CallEvent) (ev : CallEvent) (b : Abort)
    (hcalls : (Call unicodeToLower c inputs w).calls = pre ++ ev :: post)
    (hb : stopsWith ev = some b) :
    post = [] ∧ (Call unicodeToLower c inputs w).result.abort = some b := by
  rcases call_firstStop unicodeToLower c inputs w with h | h
  · rw [hcalls] at h
    rw [firstStop_none ev post pre h] at hb
    cases hb
  · cases ha : (Call unicodeToLower c inputs w).result.abort with
    | none =>
      rw [ha, hcalls] at h
      rw [firstStop_none ev post pre h] at hb
      cases hb
    | some a =>
      rw [ha, hcalls] at h
      obtain ⟨h1, h2⟩ := firstStop_last ev post a b pre h hb
      exact ⟨h1, by rw [h2]⟩

/-- C11: when a sub-chain call made by `Call` (primary, critique or revision)
comes back without the "text" key, `Call` returns the "not found" error and no
output map, and that call is the last one made. -/
theorem call_missing_text {σ : Type} (unicodeToLower : Char → Char) (c : Constitutional σ)
    (inputs : GoMap) (w : σ) (ev : CallEvent) (m : GoMap)
    (hev : ev ∈ (Call unicodeToLower c inputs w).calls)
    (hres : ev.result = ChainResult.ok m)
    (hmiss : m.get textKey = none) :
    (Call unicodeToLower c inputs w).result = Result.error notFound ∧
      (Call unicodeToLower c inputs w).calls.getLast? = some ev := by
  obtain ⟨pre, post, hcalls⟩ := List.append_of_mem hev
  have hb : stopsWith ev = some (Abort.error notFound) := by
    simp [stopsWith, hres, hmiss]
  obtain ⟨hpost, habort⟩ := call_stop unicodeToLower c inputs w pre post ev _ hcalls hb
  refine ⟨abort_eq_error _ _ habort, ?_⟩
  rw [hcalls, hpost]
  simp

theorem call_missing_text_witness :
    (Call id (stubConstitutional (critiqueDraftElse (ChainResult.ok []))
        [testPrinciple, stylePrinciple] true) [] ()).result = Result.error notFound ∧
      (Call id (stubConstitutional (critiqueDraftElse (ChainResult.ok []))
        [testPrinciple, stylePrinciple] true) [] ()).calls.getLast? =
        some ⟨Callee.critiqueChain,
          critiqueInputs (Value.str "Human: hi".toList) (Value.str "revised".toList)
            stylePrinciple.critiqueRequest,
          ChainResult.ok []⟩ :=
  call_missing_text id
    (stubConstitutional (critiqueDraftElse (ChainResult.ok []))
      [testPrinciple, stylePrinciple] true) [] ()
    ⟨Callee.critiqueChain,
      critiqueInputs (Value.str "Human: hi".toList) (Value.str "revised".toList)
        stylePrinciple.critiqueRequest,
      ChainResult.ok []⟩ [] (by decide) rfl rfl

/-- C12 (as amended): a "text" of the revision chain that is present but not
a string makes `Call` return the "not found" error; a "text" of the primary
chain is not checked: whatever value it is, with no principles `Call`
succeeds with it as "output". -/
theorem call_text_not_string {σ : Type} (unicodeToLower : Char → Char)
    (c : Constitutional σ) (inputs : GoMap) (w : σ) :
    (∀ (ev : CallEvent) (m : GoMap) (v : Value),
      ev ∈ (Call unicodeToLower c inputs w).calls →
      ev.callee = Callee.revisionChain →
      ev.result = ChainResult.ok m →
      m.get textKey = some v →
      (∀ s, v ≠ Value.str s) →
      (Call unicodeToLower c inputs w).result = Result.error notFound) ∧
    (∀ (result : GoMap) (w1 : σ) (v inputPrompt : Value),
      c.chain.Call inputs w = (ChainResult.ok result, w1) →
      result.get textKey = some v →
      c.chain.Prompt.FormatPrompt inputs = PromptResult.ok inputPrompt →
      c.constitutionalPrinciples = [] →
      (Call unicodeToLower c inputs w).result =
        Result.ok (finalOutput c.returnIntermediateSteps v ⟨v, []⟩)) := by
  refine ⟨?_, ?_⟩
  · intro ev m v hev hcallee hres ht hns
    obtain ⟨pre, post, hcalls⟩ := List.append_of_mem hev
    have hb : stopsWith ev = some (Abort.error notFound) := by
      cases v with
      | str s => exact absurd rfl (hns s)
      | pairs ps => simp [stopsWith, hres, ht, hcallee]
      | other tag => simp [stopsWith, hres, ht, hcallee]
    exact abort_eq_error _ _ (call_stop unicodeToLower c inputs w pre post ev _ hcalls hb).2
  · intro result w1 v inputPrompt hc ht hf hp
    simp [Call, hc, ht, hf, hp, loop]

theorem call_text_not_string_witness :
    (Call id (stubConstitutionalOf (fun _ => textAnswer "draft".toList) critiqueDraftOnly
        (fun _ => ChainResult.ok [(textKey, Value.other 7)]) [testPrinciple] true) [] ()).result
      = Result.error notFound ∧
    (Call id (stubConstitutionalOf (fun _ => ChainResult.ok [(textKey, Value.other 7)])
        critiqueDraftOnly (fun _ => textAnswer " revised ".toList) [] true) [] ()).result
      = Result.ok (finalOutput true (Value.other 7) ⟨Value.other 7, []⟩) :=
  ⟨(call_text_not_string id
      (stubConstitutionalOf (fun _ => textAnswer "draft".toList) critiqueDraftOnly
        (fun _ => ChainResult.ok [(textKey, Value.other 7)]) [testPrinciple] true) [] ()).1
      ⟨Callee.revisionChain, [], ChainResult.ok [(textKey, Value.other 7)]⟩
      [(textKey, Value.other 7)] (Value.other 7) (by decide) rfl rfl rfl
      (fun s h => by cases h),
    (call_text_not_string id
      (stubConstitutionalOf (fun _ => ChainResult.ok [(textKey, Value.other 7)])
        critiqueDraftOnly (fun _ => textAnswer " revised ".toList) [] true) [] ()).2
      [(textKey, Value.other 7)] () (Value.other 7) (Value.str "Human: hi".toList)
      rfl rfl rfl rfl⟩

/-- C12 fails as stated: with no principles and a primary chain whose "text"
is not a string, `Call` succeeds with that value as "output"; and with one
principle and a critique chain whose "text" is not a string, `Call` panics.
Neither returns an error. -/
theorem call_text_not_string_counterexample :
    (Call id (stubConstitutionalOf (fun _ => ChainResult.ok [(textKey, Value.other 7)])
        critiqueDraftOnly (fun _ => textAnswer " revised ".toList) [] false) [] ()).result
      = Result.ok [("output".toList, Value.other 7)] ∧
    (Call id (stubConstitutionalOf (fun _ => textAnswer "draft".toList)
        (fun _ => ChainResult.ok [(textKey, Value.other 7)])
        (fun _ => textAnswer " revised ".toList) [testPrinciple] false) [] ()).result
      = Result.panic := by
  decide

/-- C13: when a sub-chain call made by `Call` (primary, critique or revision)
returns the error `e`, `Call` returns exactly `e` and no output map, and no
call is made after the failing one. -/
theorem call_chain_error {σ : Type} (unicodeToLower : Char → Char) (c : Constitutional σ)
    (inputs : GoMap) (w : σ) (pre post : List CallEvent) (ev : CallEvent) (e : GoError)
    (hcalls : (Call unicodeToLower c inputs w).calls = pre ++ ev :: post)
    (herr : ev.result = ChainResult.err e) :
    (Call unicodeToLower c inputs w).result = Result.error e ∧ post = [] := by
  have hb : stopsWith ev = some (Abort.error e) := by
    simp [stopsWith, herr]
  obtain ⟨hpost, habort⟩ := call_stop unicodeToLower c inputs w pre post ev _ hcalls hb
  exact ⟨abort_eq_error _ _ habort, hpost⟩

theorem call_chain_error_witness :
    (Call id (stubConstitutional (critiqueDraftElse (ChainResult.err (GoError.external 7)))
        [testPrinciple, stylePrinciple] true) [] ()).result
      = Result.error (GoError.external 7) ∧ ([] : List CallEvent) = [] :=
  call_chain_error id
    (stubConstitutional (critiqueDraftElse (ChainResult.err (GoError.external 7)))
      [testPrinciple, stylePrinciple] true) [] ()
    [⟨Callee.chain, [], textAnswer "draft".toList⟩,
      ⟨Callee.critiqueChain,
        critiqueInputs (Value.str "Human: hi".toList) (Value.str "draft".toList)
          testPrinciple.critiqueRequest,
        textAnswer "Needs fixing. Revision request: clarify. Revision:".toList⟩,
      ⟨Callee.revisionChain, [], textAnswer " revised ".toList⟩]
    []
    ⟨Callee.critiqueChain,
      critiqueInputs (Value.str "Human: hi".toList) (Value.str "revised".toList)
        stylePrinciple.critiqueRequest,
      ChainResult.err (GoError.external 7)⟩
    (GoError.external 7) (by decide) rfl

/-! ## The map returned on success -/

/-- A successful `Call` went through all of its steps: the primary chain
answered with a text, the prompt was formatted, the loop ran to the end, and
the map returned is built from the loop's final state. -/
theorem call_ok_form {σ : Type} (unicodeToLower : Char → Char) (c : Constitutional σ)
    (inputs : GoMap) (w : σ) (m : GoMap)
    (hs : (Call unicodeToLower c inputs w).result = Result.ok m) :
    ∃ result w1 text inputPrompt st,
      c.chain.Call inputs w = (ChainResult.ok result, w1) ∧
      result.get textKey = some text ∧
      c.chain.Prompt.FormatPrompt inputs = PromptResult.ok inputPrompt ∧
      (loop unicodeToLower c inputPrompt c.constitutionalPrinciples ⟨text, []⟩ w1).result
        = Result.ok st ∧
      m = finalOutput c.returnIntermediateSteps text st := by
  rcases hc : c.chain.Call inputs w with ⟨res, w1⟩
  cases res with
  | err e => simp [Call, hc] at hs
  | ok result =>
    cases ht : result.get textKey with
    | none => simp [Call, hc, ht] at hs
    | some text =>
      cases hf : c.chain.Prompt.FormatPrompt inputs with
      | err e => simp [Call, hc, ht, hf] at hs
      | ok inputPrompt =>
        cases hr : (loop unicodeToLower c inputPrompt c.constitutionalPrinciples
            ⟨text, []⟩ w1).result with
        | error e => simp [Call, hc, ht, hf, hr] at hs
        | panic => simp [Call, hc, ht, hf, hr] at hs
        | ok st =>
          simp [Call, hc, ht, hf, hr] at hs
          exact ⟨result, w1, text, inputPrompt, st, rfl, ht, rfl, hr, hs.symm⟩

theorem finalOutput_keys (b : Bool) (init : Value) (st : LoopState) :
    (finalOutput b init st).map Prod.fst =
      if b then ["output".toList, "initial_output".toList, "critiques_and_revisions".toList]
      else ["output".toList] := by
  cases b <;> simp [finalOutput, GoMap.set, List.filter]

/-- C14: on every successful `Call` the keys of the returned map are those of
`GetOutputKeys()`, each once: only "output" when intermediate steps are not
reported, and "output", "initial_output" and "critiques_and_revisions" when
they are. -/
theorem call_output_keys {σ : Type} (unicodeToLower : Char → Char) (c : Constitutional σ)
    (inputs : GoMap) (w : σ) (m : GoMap)
    (hs : (Call unicodeToLower c inputs w).result = Result.ok m) :
    List.Perm (m.map Prod.fst) (GetOutputKeys c) ∧
    (m.map Prod.fst).Nodup ∧
    (c.returnIntermediateSteps = false → m.map Prod.fst = ["output".toList]) ∧
    (c.returnIntermediateSteps = true →
      ∀ k, k ∈ m.map Prod.fst ↔
        (k = "output".toList ∨ k = "initial_output".toList ∨
          k = "critiques_and_revisions".toList)) := by
  obtain ⟨result, w1, text, inputPrompt, st, _, _, _, _, hm⟩ :=
    call_ok_form unicodeToLower c inputs w m hs
  rw [hm, finalOutput_keys]
  cases hb : c.returnIntermediateSteps with
  | false =>
    refine ⟨?_, ?_, ?_, ?_⟩
    · simp [GetOutputKeys, hb]
    · simp
    · intro _; rfl
    · intro h; cases h
  | true =>
    refine ⟨?_, ?_, ?_, ?_⟩
    · simp only [GetOutputKeys, hb, if_true]
      decide
    · simp only [if_true]
      decide
    · intro h; cases h
    · intro _ k
      simp

theorem call_output_keys_witness :
    List.Perm
        (List.map Prod.fst
          (finalOutput true (Value.str "draft".toList)
            ⟨Value.str "revised".toList, [⟨"Needs fixing.".toList, "revised".toList⟩]⟩))
        (GetOutputKeys (stubConstitutional critiqueDraftOnly [testPrinciple] true)) ∧
    (List.map Prod.fst
        (finalOutput true (Value.str "draft".toList)
          ⟨Value.str "revised".toList, [⟨"Needs fixing.".toList, "revised".toList⟩]⟩)).Nodup ∧
    ((stubConstitutional critiqueDraftOnly [testPrinciple] true).returnIntermediateSteps = false →
      List.map Prod.fst
        (finalOutput true (Value.str "draft".toList)
          ⟨Value.str "revised".toList, [⟨"Needs fixing.".toList, "revised".toList⟩]⟩)
        = ["output".toList]) ∧
    ((stubConstitutional critiqueDraftOnly [testPrinciple] true).returnIntermediateSteps = true →
      ∀ k, k ∈ List.map Prod.fst
          (finalOutput true (Value.str "draft".toList)
            ⟨Value.str "revised".toList, [⟨"Needs fixing.".toList, "revised".toList⟩]⟩) ↔
        (k = "output".toList ∨ k = "initial_output".toList ∨
          k = "critiques_and_revisions".toList)) :=
  call_output_keys id (stubConstitutional critiqueDraftOnly [testPrinciple] true) [] ()
    (finalOutput true (Value.str "draft".toList)
      ⟨Value.str "revised".toList, [⟨"Needs fixing.".toList, "revised".toList⟩]⟩)
    (by decide)

/-- C15: with a critique chain answering the test's `TEXT_TWO` and a revision
chain answering "\tBetter text\n", the recorded critique is
"This text is bad.\n\n" and the recorded revision and the output are
"\tBetter text\n": tabs and newlines around the texts are kept. -/
theorem call_keeps_newlines :
    (Call id (stubConstitutionalOf (fun _ => textAnswer "draft".toList)
        (fun _ => textAnswer TEXT_TWO) (fun _ => textAnswer " \tBetter text\n ".toList)
        [testPrinciple] true) [] ()).result =
      Result.ok [("output".toList, Value.str "\tBetter text\n".toList),
        ("initial_output".toList, Value.str "draft".toList),
        ("critiques_and_revisions".toList,
          Value.pairs [⟨"This text is bad.\n\n".toList, "\tBetter text\n".toList⟩])] ∧
    IsTrimmed "This text is bad.\n\n".toList = false ∧
    IsTrimmed "\tBetter text\n".toList = false := by
  decide

/-! ## The trace and the revision calls -/

/-- The log of one run of the loop body is the critique call alone, or the
critique call followed by one revision call with an empty input map. -/
theorem loopBody_log {σ : Type} (unicodeToLower : Char → Char) (c : Constitutional σ)
    (inputPrompt : Value) (p : ConstitutionalPrinciple) (st : LoopState) (w : σ) :
    ∃ res,
      (loopBody unicodeToLower c inputPrompt p st w).calls =
        [⟨Callee.critiqueChain, critiqueInputs inputPrompt st.response p.critiqueRequest, res⟩] ∨
      ∃ res2, (loopBody unicodeToLower c inputPrompt p st w).calls =
        [⟨Callee.critiqueChain, critiqueInputs inputPrompt st.response p.critiqueRequest, res⟩,
          ⟨Callee.revisionChain, [], res2⟩] := by
  rcases hc : c.critiqueChain.Call (critiqueInputs inputPrompt st.response p.critiqueRequest) w
    with ⟨res, w1⟩
  refine ⟨res, ?_⟩
  cases res with
  | err e => left; simp [loopBody, hc]
  | ok raw =>
    cases ht : raw.get textKey with
    | none => left; simp [loopBody, hc, ht]
    | some v =>
      cases v with
      | pairs ps => left; simp [loopBody, hc, ht]
      | other tag => left; simp [loopBody, hc, ht]
      | str output =>
        by_cases h1 : noCritiqueNeeded = Trim (parseCritique output) space
        · left; simp [loopBody, hc, ht, h1.symm]
        · by_cases h2 : Contains (ToLower unicodeToLower (Trim (parseCritique output) space))
              noCritiqueNeeded = true
          · left; simp [loopBody, hc, ht, h1, h2]
          · right
            rcases hrv : c.revisionChain.Call [] w1 with ⟨res2, w2⟩
            refine ⟨res2, ?_⟩
            cases res2 with
            | err e => simp [loopBody, hc, ht, h1, h2, hrv]
            | ok result =>
              cases hrt : result.get textKey with
              | none => simp [loopBody, hc, ht, h1, h2, hrv, hrt]
              | some v2 => cases v2 <;> simp [loopBody, hc, ht, h1, h2, hrv, hrt]

/-- What a completed run of the loop body adds to the trace: at most one
pair, the one recorded for its calls. -/
theorem loopBody_records {σ : Type} (unicodeToLower : Char → Char) (c : Constitutional σ)
    (inputPrompt : Value) (p : ConstitutionalPrinciple) (st st1 : LoopState) (w : σ)
    (hok : (loopBody unicodeToLower c inputPrompt p st w).result = Result.ok st1) :
    ∃ added, st1.critiquesAndRevisions = st.critiquesAndRevisions ++ added ∧
      added.length ≤ 1 ∧
      ∀ rest, recordedPairs unicodeToLower none
          ((loopBody unicodeToLower c inputPrompt p st w).calls ++ rest) =
        added ++ recordedPairs unicodeToLower none rest := by
  rcases hc : c.critiqueChain.Call (critiqueInputs inputPrompt st.response p.critiqueRequest) w
    with ⟨res, w1⟩
  cases res with
  | err e => simp [loopBody, hc] at hok
  | ok raw =>
    cases ht : raw.get textKey with
    | none => simp [loopBody, hc, ht] at hok
    | some v =>
      cases v with
      | pairs ps => simp [loopBody, hc, ht] at hok
      | other tag => simp [loopBody, hc, ht] at hok
      | str output =>
        by_cases h1 : noCritiqueNeeded = Trim (parseCritique output) space
        · simp [loopBody, hc, ht, h1.symm] at hok
          refine ⟨[], by simp [← hok], by simp, ?_⟩
          intro rest
          simp [loopBody, hc, ht, h1.symm, recordedPairs, critiqueOf]
        · by_cases h2 : Contains (ToLower unicodeToLower (Trim (parseCritique output) space))
              noCritiqueNeeded = true
          · simp [loopBody, hc, ht, h1, h2] at hok
            refine ⟨[⟨Trim (parseCritique output) space, []⟩], by simp [← hok], by simp, ?_⟩
            intro rest
            simp [loopBody, hc, ht, h1, h2, recordedPairs, critiqueOf]
          · rcases hrv : c.revisionChain.Call [] w1 with ⟨res2, w2⟩
            cases res2 with
            | err e => simp [loopBody, hc, ht, h1, h2, hrv] at hok
            | ok result =>
              cases hrt : result.get textKey with
              | none => simp [loopBody, hc, ht, h1, h2, hrv, hrt] at hok
              | some v2 =>
                cases v2 with
                | pairs ps => simp [loopBody, hc, ht, h1, h2, hrv, hrt] at hok
                | other tag => simp [loopBody, hc, ht, h1, h2, hrv, hrt] at hok
                | str revision =>
                  simp [loopBody, hc, ht, h1, h2, hrv, hrt] at hok
                  refine ⟨[⟨Trim (parseCritique output) space, Trim revision space⟩],
                    by simp [← hok], by simp, ?_⟩
                  intro rest
                  simp [loopBody, hc, ht, h1, h2, hrv, hrt, recordedPairs, critiqueOf,
                    revisedText]

/-- The trace of a loop that ran to the end is the trace it started with
followed by the pairs recorded for its calls, at most one per principle. -/
theorem loop_records {σ : Type} (unicodeToLower : Char → Char) (c : Constitutional σ)
    (inputPrompt : Value) :
    ∀ (ps : List ConstitutionalPrinciple) (st st2 : LoopState) (w : σ),
      (loop unicodeToLower c inputPrompt ps st w).result = Result.ok st2 →
      st2.critiquesAndRevisions = st.critiquesAndRevisions ++
          recordedPairs unicodeToLower none (loop unicodeToLower c inputPrompt ps st w).calls ∧
        (recordedPairs unicodeToLower none
          (loop unicodeToLower c inputPrompt ps st w).calls).length ≤ ps.length := by
  intro ps
  induction ps with
  | nil =>
    intro st st2 w hok
    simp [loop] at hok
    simp [loop, recordedPairs, ← hok]
  | cons p ps ih =>
    intro st st2 w hok
    rw [loop_cons] at hok ⊢
    cases hr : (loopBody unicodeToLower c inputPrompt p st w).result with
    | ok st1 =>
      rw [hr] at hok
      simp only at hok ⊢
      obtain ⟨added, hadd, hlen, hrec⟩ :=
        loopBody_records unicodeToLower c inputPrompt p st st1 w hr
      obtain ⟨h1, h2⟩ := ih st1 st2 _ hok
      rw [hrec, h1, hadd]
      refine ⟨by simp, ?_⟩
      simp only [List.length_append, List.length_cons]
      omega
    | error e => rw [hr] at hok; simp at hok
    | panic => rw [hr] at hok; simp at hok

/-- The calls of a loop that ran to the end fall into one iteration per
principle, in the order of the principles, and the trace is the trace it
started with followed by the pairs recorded for each iteration, in that
order. -/
theorem loop_segments {σ : Type} (unicodeToLower : Char → Char) (c : Constitutional σ)
    (inputPrompt : Value) :
    ∀ (ps : List ConstitutionalPrinciple) (st st2 : LoopState) (w : σ),
      (loop unicodeToLower c inputPrompt ps st w).result = Result.ok st2 →
      ∃ segs : List (List CallEvent),
        (loop unicodeToLower c inputPrompt ps st w).calls = segs.flatten ∧
        List.Forall₂ (IsIterationFor inputPrompt) ps segs ∧
        (∀ seg ∈ segs, (recordedPairs unicodeToLower none seg).length ≤ 1) ∧
        st2.critiquesAndRevisions = st.critiquesAndRevisions ++
          segs.flatMap (recordedPairs unicodeToLower none) := by
  intro ps
  induction ps with
  | nil =>
    intro st st2 w hok
    simp [loop] at hok
    exact ⟨[], by simp [loop], List.Forall₂.nil, by simp, by simp [← hok]⟩
  | cons p ps ih =>
    intro st st2 w hok
    rw [loop_cons] at hok ⊢
    cases hr : (loopBody unicodeToLower c inputPrompt p st w).result with
    | ok st1 =>
      rw [hr] at hok
      simp only at hok ⊢
      obtain ⟨res, tail, hcalls, htail, _⟩ :=
        loopBody_calls unicodeToLower c inputPrompt p st w
      obtain ⟨added, hadd, hlen, hrec⟩ :=
        loopBody_records unicodeToLower c inputPrompt p st st1 w hr
      have hseg : recordedPairs unicodeToLower none
          (loopBody unicodeToLower c inputPrompt p st w).calls = added := by
        have := hrec []
        simpa [recordedPairs] using this
      obtain ⟨segs, h1, h2, h3, h4⟩ := ih st1 st2 _ hok
      refine ⟨(loopBody unicodeToLower c inputPrompt p st w).calls :: segs, ?_, ?_, ?_, ?_⟩
      · rw [h1]; simp
      · exact List.Forall₂.cons ⟨st.response, res, tail, hcalls, htail⟩ h2
      · intro seg hmem
        rcases List.mem_cons.mp hmem with h | h
        · rw [h, hseg]; exact hlen
        · exact h3 seg h
      · rw [h4, hadd, List.flatMap_cons, hseg, List.append_assoc]
    | error e => rw [hr] at hok; simp at hok
    | panic => rw [hr] at hok; simp at hok

/-- C16: when intermediate steps are reported, a successful `Call` returns
under "initial_output" the primary chain's "text" value, whatever happened in
the loop.  Its calls after the primary call fall into one iteration per
principle, in the declared order of `c.constitutionalPrinciples`, each
starting with the critique call made with that principle's critique request
and recording at most one pair; "critiques_and_revisions" holds the pairs
recorded for these iterations, in the order of the principles. -/
theorem call_intermediate_steps {σ : Type} (unicodeToLower : Char → Char)
    (c : Constitutional σ) (inputs result m : GoMap) (w w1 : σ) (text : Value)
    (hsteps : c.returnIntermediateSteps = true)
    (hc : c.chain.Call inputs w = (ChainResult.ok result, w1))
    (ht : result.get textKey = some text)
    (hs : (Call unicodeToLower c inputs w).result = Result.ok m) :
    m.get "initial_output".toList = some text ∧
    m.get "critiques_and_revisions".toList =
      some (Value.pairs
        (recordedPairs unicodeToLower none (Call unicodeToLower c inputs w).calls)) ∧
    ∃ (inputPrompt : Value) (segs : List (List CallEvent)),
      c.chain.Prompt.FormatPrompt inputs = PromptResult.ok inputPrompt ∧
      (Call unicodeToLower c inputs w).calls =
        ⟨Callee.chain, inputs, ChainResult.ok result⟩ :: segs.flatten ∧
      List.Forall₂ (IsIterationFor inputPrompt) c.constitutionalPrinciples segs ∧
      (∀ seg ∈ segs, (recordedPairs unicodeToLower none seg).length ≤ 1) ∧
      m.get "critiques_and_revisions".toList =
        some (Value.pairs (segs.flatMap (recordedPairs unicodeToLower none))) := by
  obtain ⟨result2, w2, text2, inputPrompt, st, hc2, ht2, hf, hl, hm⟩ :=
    call_ok_form unicodeToLower c inputs w m hs
  rw [hc] at hc2
  simp only [Prod.mk.injEq, ChainResult.ok.injEq] at hc2
  obtain ⟨rfl, rfl⟩ := hc2
  rw [ht] at ht2
  cases ht2
  obtain ⟨hcalls, _⟩ := call_calls unicodeToLower c inputs result w w1 text inputPrompt hc ht hf
  obtain ⟨hrec, _⟩ := loop_records unicodeToLower c inputPrompt c.constitutionalPrinciples
    ⟨text, []⟩ st w1 hl
  obtain ⟨segs, hflat, hall, hone, htrace⟩ := loop_segments unicodeToLower c inputPrompt
    c.constitutionalPrinciples ⟨text, []⟩ st w1 hl
  refine ⟨?_, ?_, inputPrompt, segs, hf, ?_, hall, hone, ?_⟩
  · rw [hm, hsteps]
    exact finalOutput_get_initial _ _
  · rw [hm, hsteps, hcalls, finalOutput_get_pairs, hrec]
    simp [recordedPairs]
  · rw [hcalls, hflat]
  · rw [hm, hsteps, finalOutput_get_pairs, htrace]
    simp

theorem call_intermediate_steps_witness :
    GoMap.get [("output".toList, Value.str "revised".toList),
        ("initial_output".toList, Value.str "draft".toList),
        ("critiques_and_revisions".toList,
          Value.pairs [⟨"Needs fixing.".toList, "revised".toList⟩,
            ⟨"No critique needed.".toList, []⟩])] "initial_output".toList
      = some (Value.str "draft".toList) ∧
    GoMap.get [("output".toList, Value.str "revised".toList),
        ("initial_output".toList, Value.str "draft".toList),
        ("critiques_and_revisions".toList,
          Value.pairs [⟨"Needs fixing.".toList, "revised".toList⟩,
            ⟨"No critique needed.".toList, []⟩])] "critiques_and_revisions".toList
      = some (Value.pairs (recordedPairs id none (Call id twoPrincipleRun [] ()).calls)) ∧
    ∃ (inputPrompt : Value) (segs : List (List CallEvent)),
      twoPrincipleRun.chain.Prompt.FormatPrompt [] = PromptResult.ok inputPrompt ∧
      (Call id twoPrincipleRun [] ()).calls =
        ⟨Callee.chain, [], ChainResult.ok [(textKey, Value.str "draft".toList)]⟩
          :: segs.flatten ∧
      List.Forall₂ (IsIterationFor inputPrompt) [testPrinciple, stylePrinciple] segs ∧
      (∀ seg ∈ segs, (recordedPairs id none seg).length ≤ 1) ∧
      GoMap.get [("output".toList, Value.str "revised".toList),
          ("initial_output".toList, Value.str "draft".toList),
          ("critiques_and_revisions".toList,
            Value.pairs [⟨"Needs fixing.".toList, "revised".toList⟩,
              ⟨"No critique needed.".toList, []⟩])] "critiques_and_revisions".toList
        = some (Value.pairs (segs.flatMap (recordedPairs id none))) :=
  call_intermediate_steps id twoPrincipleRun []
    [(textKey, Value.str "draft".toList)]
    [("output".toList, Value.str "revised".toList),
      ("initial_output".toList, Value.str "draft".toList),
      ("critiques_and_revisions".toList,
        Value.pairs [⟨"Needs fixing.".toList, "revised".toList⟩,
          ⟨"No critique needed.".toList, []⟩])]
    () () (Value.str "draft".toList) rfl rfl rfl (by decide)

theorem revisionCalls_append (l1 l2 : List CallEvent) :
    revisionCalls (l1 ++ l2) = revisionCalls l1 ++ revisionCalls l2 := by
  simp [revisionCalls]

/-- One run of the loop body calls the revision chain at most once. -/
theorem loopBody_revision_count {σ : Type} (unicodeToLower : Char → Char)
    (c : Constitutional σ) (inputPrompt : Value) (p : ConstitutionalPrinciple)
    (st : LoopState) (w : σ) :
    (revisionCalls (loopBody unicodeToLower c inputPrompt p st w).calls).length ≤ 1 := by
  obtain ⟨res, h | ⟨res2, h⟩⟩ := loopBody_log unicodeToLower c inputPrompt p st w <;>
    rw [h] <;> simp [revisionCalls, List.filter]

/-- The revision calls of one run of the loop body have an empty input map. -/
theorem loopBody_revision_inputs {σ : Type} (unicodeToLower : Char → Char)
    (c : Constitutional σ) (inputPrompt : Value) (p : ConstitutionalPrinciple)
    (st : LoopState) (w : σ) (ev : CallEvent)
    (hev : ev ∈ (loopBody unicodeToLower c inputPrompt p st w).calls)
    (hcallee : ev.callee = Callee.revisionChain) : ev.inputs = [] := by
  obtain ⟨res, h | ⟨res2, h⟩⟩ := loopBody_log unicodeToLower c inputPrompt p st w
  · rw [h] at hev
    simp at hev
    rw [hev] at hcallee
    cases hcallee
  · rw [h] at hev
    simp at hev
    rcases hev with hev | hev
    · rw [hev] at hcallee
      cases hcallee
    · rw [hev]

/-- The loop calls the revision chain at most once per principle, always with
an empty input map. -/
theorem loop_revisions {σ : Type} (unicodeToLower : Char → Char) (c : Constitutional σ)
    (inputPrompt : Value) :
    ∀ (ps : List ConstitutionalPrinciple) (st : LoopState) (w : σ),
      (revisionCalls (loop unicodeToLower c inputPrompt ps st w).calls).length ≤ ps.length ∧
      ∀ ev ∈ (loop unicodeToLower c inputPrompt ps st w).calls,
        ev.callee = Callee.revisionChain → ev.inputs = [] := by
  intro ps
  induction ps with
  | nil => intro st w; simp [loop, revisionCalls]
  | cons p ps ih =>
    intro st w
    have hcount := loopBody_revision_count unicodeToLower c inputPrompt p st w
    have hin := loopBody_revision_inputs unicodeToLower c inputPrompt p st w
    rw [loop_cons]
    cases hr : (loopBody unicodeToLower c inputPrompt p st w).result with
    | ok st1 =>
      simp only
      obtain ⟨h1, h2⟩ := ih st1 (loopBody unicodeToLower c inputPrompt p st w).world
      refine ⟨?_, ?_⟩
      · rw [revisionCalls_append, List.length_append, List.length_cons]
        omega
      · intro ev hev hcallee
        rcases List.mem_append.mp hev with h | h
        · exact hin ev h hcallee
        · exact h2 ev h hcallee
    | error e =>
      simp only
      exact ⟨by rw [List.length_cons]; omega, hin⟩
    | panic =>
      simp only
      exact ⟨by rw [List.length_cons]; omega, hin⟩

theorem currentResponseAfter_append (l1 l2 : List CallEvent) :
    ∀ current : Value, currentResponseAfter current (l1 ++ l2) =
      currentResponseAfter (currentResponseAfter current l1) l2 := by
  induction l1 with
  | nil => intro current; rfl
  | cons ev l1 ih =>
    intro current
    simp only [List.cons_append, currentResponseAfter]
    exact ih _

/-- The response of a loop that ran to the end is the current response after
its calls. -/
theorem loop_response {σ : Type} (unicodeToLower : Char → Char) (c : Constitutional σ)
    (inputPrompt : Value) :
    ∀ (ps : List ConstitutionalPrinciple) (st st2 : LoopState) (w : σ),
      (loop unicodeToLower c inputPrompt ps st w).result = Result.ok st2 →
      st2.response =
        currentResponseAfter st.response (loop unicodeToLower c inputPrompt ps st w).calls := by
  intro ps
  induction ps with
  | nil =>
    intro st st2 w hok
    simp [loop] at hok
    simp [loop, currentResponseAfter, ← hok]
  | cons p ps ih =>
    intro st st2 w hok
    obtain ⟨res, tail, hcalls, _, hresp⟩ := loopBody_calls unicodeToLower c inputPrompt p st w
    rw [loop_cons] at hok ⊢
    cases hr : (loopBody unicodeToLower c inputPrompt p st w).result with
    | ok st1 =>
      rw [hr] at hok
      simp only at hok ⊢
      rw [currentResponseAfter_append, ih st1 st2 _ hok, hresp st1 hr, hcalls]
      simp [currentResponseAfter, revisedText]
    | error e => rw [hr] at hok; simp at hok
    | panic => rw [hr] at hok; simp at hok

/-- A revision call after which `Call` goes on came back with a string under
"text". -/
theorem revision_text_of_not_stopping (ev : CallEvent)
    (hcallee : ev.callee = Callee.revisionChain) (h : stopsWith ev = none) :
    ∃ m r, ev.result = ChainResult.ok m ∧ m.get textKey = some (Value.str r) ∧
      revisedText ev = some (Value.str (Trim r space)) := by
  obtain ⟨callee, inputs, result⟩ := ev
  simp only at hcallee
  subst hcallee
  cases result with
  | err e => simp [stopsWith] at h
  | ok m =>
    cases ht : m.get textKey with
    | none => simp [stopsWith, ht] at h
    | some v =>
      cases v with
      | pairs ps => simp [stopsWith, ht] at h
      | other tag => simp [stopsWith, ht] at h
      | str r => exact ⟨m, r, rfl, ht, by simp [revisedText, ht]⟩

theorem revisedText_of_not_revision (ev : CallEvent)
    (hcallee : ev.callee ≠ Callee.revisionChain) : revisedText ev = none := by
  obtain ⟨callee, inputs, result⟩ := ev
  cases callee <;> simp_all [revisedText]

/-- In a log without a stopping call, the current response after the calls is
the trimmed text of the last revision call, or the starting response when
there is no revision call. -/
theorem currentResponseAfter_last (l : List CallEvent)
    (hgood : ∀ ev ∈ l, stopsWith ev = none) :
    ∀ current : Value, currentResponseAfter current l =
      (((revisionCalls l).getLast?).bind revisedText).getD current := by
  induction l with
  | nil => intro current; rfl
  | cons ev rest ih =>
    intro current
    have ih2 := ih (fun e he => hgood e (List.mem_cons_of_mem _ he))
    by_cases hcallee : ev.callee = Callee.revisionChain
    · obtain ⟨m, r, _, _, hrt⟩ :=
        revision_text_of_not_stopping ev hcallee (hgood ev (List.mem_cons_self _ _))
      have hrc : revisionCalls (ev :: rest) = ev :: revisionCalls rest := by
        simp [revisionCalls, List.filter, hcallee]
      rw [hrc, List.getLast?_cons]
      simp only [currentResponseAfter, hrt, Option.getD_some, ih2]
      cases hq : (revisionCalls rest).getLast? with
      | none => simp [hrt]
      | some e =>
        have hmem : e ∈ revisionCalls rest := List.mem_of_getLast?_eq_some hq
        have hmem2 : e ∈ rest ∧ e.callee = Callee.revisionChain := by
          simpa [revisionCalls] using hmem
        obtain ⟨m2, r2, _, _, hrt2⟩ := revision_text_of_not_stopping e hmem2.2
          (hgood e (List.mem_cons_of_mem _ hmem2.1))
        simp [hrt2]
    · have hrc : revisionCalls (ev :: rest) = revisionCalls rest := by
        simp [revisionCalls, List.filter, hcallee]
      rw [hrc]
      simp only [currentResponseAfter, revisedText_of_not_revision ev hcallee, Option.getD_none]
      exact ih2 current

/-- No call of a successful `Call` is a stopping call. -/
theorem call_ok_no_stop {σ : Type} (unicodeToLower : Char → Char) (c : Constitutional σ)
    (inputs : GoMap) (w : σ) (m : GoMap)
    (hs : (Call unicodeToLower c inputs w).result = Result.ok m) :
    ∀ ev ∈ (Call unicodeToLower c inputs w).calls, stopsWith ev = none := by
  intro ev hev
  obtain ⟨pre, post, hcalls⟩ := List.append_of_mem hev
  cases hb : stopsWith ev with
  | none => rfl
  | some b =>
    have := (call_stop unicodeToLower c inputs w pre post ev b hcalls hb).2
    rw [hs] at this
    simp [Result.abort] at this

/-- C19: on every successful `Call` the trace has at most one entry per
principle, the revision chain was called at most once per principle (at most
once in each run of the loop body), and "output" is the primary chain's text
when the revision chain was never called, otherwise the text of the last
revision call trimmed of spaces. -/
theorem call_success_bounds {σ : Type} (unicodeToLower : Char → Char) (c : Constitutional σ)
    (inputs : GoMap) (w : σ) (m : GoMap)
    (hs : (Call unicodeToLower c inputs w).result = Result.ok m) :
    ∃ result w1 text st,
      c.chain.Call inputs w = (ChainResult.ok result, w1) ∧
      result.get textKey = some text ∧
      m = finalOutput c.returnIntermediateSteps text st ∧
      st.critiquesAndRevisions.length ≤ c.constitutionalPrinciples.length ∧
      (revisionCalls (Call unicodeToLower c inputs w).calls).length
        ≤ c.constitutionalPrinciples.length ∧
      (∀ inputPrompt p st0 w0,
        (revisionCalls (loopBody unicodeToLower c inputPrompt p st0 w0).calls).length ≤ 1) ∧
      (revisionCalls (Call unicodeToLower c inputs w).calls = [] →
        m.get "output".toList = some text) ∧
      (∀ ev, (revisionCalls (Call unicodeToLower c inputs w).calls).getLast? = some ev →
        ∃ mres r, ev.result = ChainResult.ok mres ∧
          mres.get textKey = some (Value.str r) ∧
          m.get "output".toList = some (Value.str (Trim r space))) := by
  obtain ⟨result, w1, text, inputPrompt, st, hc, ht, hf, hl, hm⟩ :=
    call_ok_form unicodeToLower c inputs w m hs
  obtain ⟨hcalls, _⟩ := call_calls unicodeToLower c inputs result w w1 text inputPrompt hc ht hf
  obtain ⟨hrec, hreclen⟩ := loop_records unicodeToLower c inputPrompt
    c.constitutionalPrinciples ⟨text, []⟩ st w1 hl
  obtain ⟨hrevlen, _⟩ := loop_revisions unicodeToLower c inputPrompt
    c.constitutionalPrinciples ⟨text, []⟩ w1
  have hresp := loop_response unicodeToLower c inputPrompt c.constitutionalPrinciples
    ⟨text, []⟩ st w1 hl
  have hgood := call_ok_no_stop unicodeToLower c inputs w m hs
  have hrc : revisionCalls (Call unicodeToLower c inputs w).calls =
      revisionCalls (loop unicodeToLower c inputPrompt c.constitutionalPrinciples
        ⟨text, []⟩ w1).calls := by
    rw [hcalls]; simp [revisionCalls, List.filter]
  have hcur : st.response =
      (((revisionCalls (Call unicodeToLower c inputs w).calls).getLast?).bind
        revisedText).getD text := by
    rw [hresp, hrc]
    apply currentResponseAfter_last
    intro ev hev
    apply hgood
    rw [hcalls]
    exact List.mem_cons_of_mem _ hev
  have hout : m.get "output".toList = some st.response := by
    rw [hm]; exact finalOutput_get_output _ _ _
  refine ⟨result, w1, text, st, hc, ht, hm, ?_, ?_, ?_, ?_, ?_⟩
  · rw [hrec]
    simpa using hreclen
  · rw [hrc]; exact hrevlen
  · intro ip p st0 w0
    exact loopBody_revision_count unicodeToLower c ip p st0 w0
  · intro hnil
    rw [hout, hcur, hnil]
    rfl
  · intro ev hlast
    have hmem : ev ∈ revisionCalls (Call unicodeToLower c inputs w).calls :=
      List.mem_of_getLast?_eq_some hlast
    have hmem2 : ev ∈ (Call unicodeToLower c inputs w).calls ∧
        ev.callee = Callee.revisionChain := by
      simpa [revisionCalls] using hmem
    obtain ⟨mres, r, h1, h2, h3⟩ :=
      revision_text_of_not_stopping ev hmem2.2 (hgood ev hmem2.1)
    refine ⟨mres, r, h1, h2, ?_⟩
    rw [hout, hcur, hlast]
    simp [h3]

theorem call_success_bounds_witness :
    ∃ result w1 text st,
      twoPrincipleRun.chain.Call [] () = (ChainResult.ok result, w1) ∧
      result.get textKey = some text ∧
      [("output".toList, Value.str "revised".toList),
        ("initial_output".toList, Value.str "draft".toList),
        ("critiques_and_revisions".toList,
          Value.pairs [⟨"Needs fixing.".toList, "revised".toList⟩,
            ⟨"No critique needed.".toList, []⟩])]
        = finalOutput twoPrincipleRun.returnIntermediateSteps text st ∧
      st.critiquesAndRevisions.length ≤ twoPrincipleRun.constitutionalPrinciples.length ∧
      (revisionCalls (Call id twoPrincipleRun [] ()).calls).length
        ≤ twoPrincipleRun.constitutionalPrinciples.length ∧
      (∀ inputPrompt p st0 w0,
        (revisionCalls (loopBody id twoPrincipleRun inputPrompt p st0 w0).calls).length ≤ 1) ∧
      (revisionCalls (Call id twoPrincipleRun [] ()).calls = [] →
        GoMap.get [("output".toList, Value.str "revised".toList),
          ("initial_output".toList, Value.str "draft".toList),
          ("critiques_and_revisions".toList,
            Value.pairs [⟨"Needs fixing.".toList, "revised".toList⟩,
              ⟨"No critique needed.".toList, []⟩])] "output".toList = some text) ∧
      (∀ ev, (revisionCalls (Call id twoPrincipleRun [] ()).calls).getLast? = some ev →
        ∃ mres r, ev.result = ChainResult.ok mres ∧
          mres.get textKey = some (Value.str r) ∧
          GoMap.get [("output".toList, Value.str "revised".toList),
            ("initial_output".toList, Value.str "draft".toList),
            ("critiques_and_revisions".toList,
              Value.pairs [⟨"Needs fixing.".toList, "revised".toList⟩,
                ⟨"No critique needed.".toList, []⟩])] "output".toList
            = some (Value.str (Trim r space))) :=
  call_success_bounds id twoPrincipleRun [] ()
    [("output".toList, Value.str "revised".toList),
      ("initial_output".toList, Value.str "draft".toList),
      ("critiques_and_revisions".toList,
        Value.pairs [⟨"Needs fixing.".toList, "revised".toList⟩,
          ⟨"No critique needed.".toList, []⟩])]
    (by decide)

/-! ## Independence of revision request and name -/

theorem loopBody_congr {σ : Type} (unicodeToLower : Char → Char) (c1 c2 : Constitutional σ)
    (inputPrompt : Value) (p1 p2 : ConstitutionalPrinciple) (st : LoopState) (w : σ)
    (hcrit : c1.critiqueChain = c2.critiqueChain)
    (hrev : c1.revisionChain = c2.revisionChain)
    (hp : p1.critiqueRequest = p2.critiqueRequest) :
    loopBody unicodeToLower c1 inputPrompt p1 st w =
      loopBody unicodeToLower c2 inputPrompt p2 st w := by
  simp only [loopBody, hcrit, hrev, hp]

theorem loop_congr {σ : Type} (unicodeToLower : Char → Char) (c1 c2 : Constitutional σ)
    (inputPrompt : Value)
    (hcrit : c1.critiqueChain = c2.critiqueChain)
    (hrev : c1.revisionChain = c2.revisionChain) :
    ∀ (ps1 ps2 : List ConstitutionalPrinciple) (st : LoopState) (w : σ),
      ps1.map (fun p => p.critiqueRequest) = ps2.map (fun p => p.critiqueRequest) →
      loop unicodeToLower c1 inputPrompt ps1 st w =
        loop unicodeToLower c2 inputPrompt ps2 st w := by
  intro ps1
  induction ps1 with
  | nil =>
    intro ps2 st w h
    cases ps2 with
    | nil => rfl
    | cons q qs => simp at h
  | cons p ps ih =>
    intro ps2 st w h
    cases ps2 with
    | nil => simp at h
    | cons q qs =>
      simp only [List.map_cons, List.cons.injEq] at h
      rw [loop_cons, loop_cons,
        loopBody_congr unicodeToLower c1 c2 inputPrompt p q st w hcrit hrev h.1]
      cases (loopBody unicodeToLower c2 inputPrompt q st w).result with
      | ok st1 => simp only [ih qs st1 _ h.2]
      | error e => rfl
      | panic => rfl

/-- Every revision call of `Call` has an empty input map. -/
theorem call_revision_inputs {σ : Type} (unicodeToLower : Char → Char) (c : Constitutional σ)
    (inputs : GoMap) (w : σ) :
    ∀ ev ∈ (Call unicodeToLower c inputs w).calls,
      ev.callee = Callee.revisionChain → ev.inputs = [] := by
  intro ev hev hcallee
  rcases hc : c.chain.Call inputs w with ⟨res, w1⟩
  cases res with
  | err e =>
    simp [Call, hc] at hev
    rw [hev] at hcallee; cases hcallee
  | ok result =>
    cases ht : result.get textKey with
    | none =>
      simp [Call, hc, ht] at hev
      rw [hev] at hcallee; cases hcallee
    | some text =>
      cases hf : c.chain.Prompt.FormatPrompt inputs with
      | err e =>
        simp [Call, hc, ht, hf] at hev
        rw [hev] at hcallee; cases hcallee
      | ok inputPrompt =>
        obtain ⟨hcalls, _⟩ :=
          call_calls unicodeToLower c inputs result w w1 text inputPrompt hc ht hf
        rw [hcalls] at hev
        rcases List.mem_cons.mp hev with h | h
        · rw [h] at hcallee; cases hcallee
        · exact (loop_revisions unicodeToLower c inputPrompt c.constitutionalPrinciples
            ⟨text, []⟩ w1).2 ev h hcallee

/-- C20: two `Constitutional` values with the same sub-chains and the same
reporting flag, whose principle lists have the same critique requests in the
same order (and may differ in every revision request and name), give for the
same inputs and world the same run of `Call`: the same result, the same
sequence of sub-chain calls with the same arguments, and the same final
world; and every revision call has an empty input map. -/
theorem call_independent_of_names {σ : Type} (unicodeToLower : Char → Char)
    (c1 c2 : Constitutional σ) (inputs : GoMap) (w : σ)
    (hchain : c1.chain = c2.chain)
    (hcrit : c1.critiqueChain = c2.critiqueChain)
    (hrev : c1.revisionChain = c2.revisionChain)
    (hsteps : c1.returnIntermediateSteps = c2.returnIntermediateSteps)
    (hreq : c1.constitutionalPrinciples.map (fun p => p.critiqueRequest) =
      c2.constitutionalPrinciples.map (fun p => p.critiqueRequest)) :
    Call unicodeToLower c1 inputs w = Call unicodeToLower c2 inputs w ∧
    ∀ ev ∈ (Call unicodeToLower c1 inputs w).calls,
      ev.callee = Callee.revisionChain → ev.inputs = [] := by
  refine ⟨?_, call_revision_inputs unicodeToLower c1 inputs w⟩
  have hl : ∀ (inputPrompt : Value) (st : LoopState) (w1 : σ),
      loop unicodeToLower c1 inputPrompt c1.constitutionalPrinciples st w1 =
        loop unicodeToLower c2 inputPrompt c2.constitutionalPrinciples st w1 :=
    fun ip st w1 => loop_congr unicodeToLower c1 c2 ip hcrit hrev _ _ st w1 hreq
  simp only [Call, hchain, hsteps, hl]

theorem call_independent_of_names_witness :
    Call id twoPrincipleRun [] () = Call id twoPrincipleRunRenamed [] () ∧
    ∀ ev ∈ (Call id twoPrincipleRun [] ()).calls,
      ev.callee = Callee.revisionChain → ev.inputs = [] :=
  call_independent_of_names id twoPrincipleRun twoPrincipleRunRenamed [] ()
    rfl rfl rfl rfl (by decide)

end Chains
